import Mathlib

/-!
Verification of the identifier-normalization and PDF-acquisition pipeline
(`doi_utils.py`, `pdf_fetcher.py`, `scholar_search.py`).

Strings are modelled as `List Char`; Python regular-expression matching for
the two concrete DOI patterns is unfolded into explicit character scans that
realise the (deterministic) backtracking behaviour of the patterns involved.
-/

namespace DoiUtils

/-- ASCII whitespace recognised by Python's `str.strip` / `\s`
(space, tab, newline, carriage return, vertical tab, form feed). -/
def pyIsSpace (c : Char) : Bool :=
  c = ' ' || c = '\t' || c = '\n' || c = '\r' || c = '\x0b' || c = '\x0c'

/-- Convenience: a Lean string literal as a `List Char`. -/
def str (s : String) : List Char := s.toList

/-- Python `s.strip()`: remove leading and trailing whitespace. -/
def strip (s : List Char) : List Char :=
  ((s.dropWhile pyIsSpace).reverse.dropWhile pyIsSpace).reverse

/-- `listStartsWith p s` is Python `s.startswith(p)` (first argument the
candidate leading segment). -/
def listStartsWith : List Char → List Char → Bool
  | [], _ => true
  | _ :: _, [] => false
  | a :: as, b :: bs => a = b && listStartsWith as bs

/-- Python `needle in hay` substring containment. -/
def containsSub (needle : List Char) : List Char → Bool
  | [] => listStartsWith needle []
  | c :: cs => listStartsWith needle (c :: cs) || containsSub needle cs

/-- Python `.lower()` (ASCII letters). -/
def lowerStr (s : List Char) : List Char := s.map Char.toLower

/-- `DOI_PATTERN = ^10\.\d{4,9}/[^\s]+$` applied to an already stripped
string.  Because `/` is not a digit, the regex (greedy with backtracking)
accepts exactly when the maximal leading digit run after `10.` has length
4–9, is followed by `/`, and the remainder is a non-empty whitespace-free
run reaching the end of the string. -/
def doiCoreMatch : List Char → Bool
  | '1' :: '0' :: '.' :: rest =>
    let ds := rest.takeWhile Char.isDigit
    (decide (4 ≤ ds.length) && decide (ds.length ≤ 9)) &&
      (match rest.dropWhile Char.isDigit with
       | '/' :: suf => (!suf.isEmpty) && suf.all (fun c => !pyIsSpace c)
       | _ => false)
  | _ => false

/-- `is_valid_doi` from `doi_utils.py`: empty input is rejected, otherwise
the stripped string is matched against `DOI_PATTERN`. -/
def is_valid_doi (doi : List Char) : Bool :=
  if doi.isEmpty then false else doiCoreMatch (strip doi)

/-- Attempt of `DOI_PREFIX_PATTERN = 10\.\d{4,9}/[^\s]+` anchored at the
start of `s`; returns the (greedy) match.  As in `doiCoreMatch`, the digit
run consumed must be the maximal one, and the suffix is the maximal
whitespace-free run after the slash. -/
def findDoiAt : List Char → Option (List Char)
  | '1' :: '0' :: '.' :: rest =>
    let ds := rest.takeWhile Char.isDigit
    if 4 ≤ ds.length ∧ ds.length ≤ 9 then
      match rest.dropWhile Char.isDigit with
      | '/' :: t =>
        let suf := t.takeWhile (fun c => !pyIsSpace c)
        if suf.isEmpty then none
        else some ('1' :: '0' :: '.' :: (ds ++ '/' :: suf))
      | _ => none
    else none
  | _ => none

/-- `DOI_PREFIX_PATTERN.search`: leftmost match wins. -/
def searchDoi : List Char → Option (List Char)
  | [] => none
  | c :: cs =>
    match findDoiAt (c :: cs) with
    | some m => some m
    | none => searchDoi cs

/-- The fixed URL-prefix list of `clean_doi` (`doi:`/`DOI:` coincide after
lowercasing, exactly as in the source). -/
def doiUrlHeads : List (List Char) :=
  [str "https://doi.org/", str "http://doi.org/",
   str "https://dx.doi.org/", str "http://dx.doi.org/",
   str "doi:", str "DOI:"]

/-- The prefix-removal loop of `clean_doi`: the first head (in list order)
that case-insensitively starts the string is dropped, then the loop breaks. -/
def dropUrlHead : List (List Char) → List Char → List Char
  | [], s => s
  | p :: ps, s =>
    if listStartsWith (lowerStr p) (lowerStr s) then s.drop p.length
    else dropUrlHead ps s

/-- `re.split(r'[&?]', doi)[0]`: truncate at the first `&` or `?`. -/
def cutQuery (s : List Char) : List Char :=
  s.takeWhile (fun c => !(c = '&' || c = '?'))

/-- Python `doi.replace('&amp;', '&')` (left-to-right, non-overlapping). -/
def replaceAmp : List Char → List Char
  | '&' :: 'a' :: 'm' :: 'p' :: ';' :: rest => '&' :: replaceAmp rest
  | c :: rest => c :: replaceAmp rest
  | [] => []

/-- `doi.rstrip('.,;:)')`. -/
def rstripPunct (s : List Char) : List Char :=
  (s.reverse.dropWhile (fun c => c = '.' || c = ',' || c = ';' || c = ':' || c = ')')).reverse

/-- `doi.rsplit('/', 1)` when a slash occurs: splits at the last `/` into
the part before it and the part after it. -/
def rsplitSlash : List Char → Option (List Char × List Char)
  | [] => none
  | c :: cs =>
    match rsplitSlash cs with
    | some (p, s) => some (c :: p, s)
    | none => if c = '/' then some ([], cs) else none

/-- The trailing-numeric-fragment heuristic of `clean_doi`: the final path
segment is removed exactly when it is a non-empty all-digit run of length
6–8 (`parts[1].isdigit()` is false on the empty string). -/
def stripNumFragment (s : List Char) : List Char :=
  match rsplitSlash s with
  | none => s
  | some (pre, seg) =>
    if (!seg.isEmpty) && seg.all Char.isDigit
        && (decide (6 ≤ seg.length) && decide (seg.length ≤ 8)) then pre
    else s

/-- `clean_doi` from `doi_utils.py`. -/
def clean_doi (doi : List Char) : Option (List Char) :=
  if doi.isEmpty then none
  else
    let d1 := strip doi
    let d2 := dropUrlHead doiUrlHeads d1
    let d3 := cutQuery d2
    let d4 := replaceAmp d3
    let d5 := rstripPunct d4
    let d6 := stripNumFragment d5
    if d6.isEmpty then none else some d6

/-- `extract_doi` from `doi_utils.py`. -/
def extract_doi (text : List Char) : Option (List Char) :=
  if text.isEmpty then none
  else
    match searchDoi text with
    | none => none
    | some m => clean_doi m

/-- Right-strip only (what `strip` does to a trailing segment whose head is
preceded by non-whitespace). -/
def stripRight (l : List Char) : List Char :=
  (l.reverse.dropWhile pyIsSpace).reverse

/-- `normalize_doi` from `doi_utils.py`. -/
def normalize_doi (doi : List Char) : Option (List Char) :=
  let extracted :=
    if listStartsWith (str "10.") (strip doi) then some doi
    else extract_doi doi
  let cleaned := clean_doi (match extracted with | some e => e | none => doi)
  match cleaned with
  | none => none
  | some c => if is_valid_doi c then some c else none

end DoiUtils

namespace PdfFetcher

open DoiUtils

/-! ### `_download_pdf` (Content Verifier / Downloader) -/

/-- The PDF magic header `b"%PDF-"` as bytes. -/
def pdfMagic : List Nat := [37, 80, 68, 70, 45]

/-- Outcome of the `session.get` inside `_download_pdf`: a transport
exception (`requests.RequestException`, which also covers the error
statuses raised by `raise_for_status`), or a response carrying its declared
`Content-Type` header and its streamed body bytes. -/
inductive HttpOutcome where
  | transportError : HttpOutcome
  | response (contentType : List Char) (body : List Nat) : HttpOutcome
deriving DecidableEq

/-- Result of `_download_pdf`: the boolean it returns together with the
bytes written to the destination file (`none` when no file is written). -/
structure DownloadResult where
  ok : Bool
  written : Option (List Nat)
deriving DecidableEq

/-- `_download_pdf` from `pdf_fetcher.py`.  When the declared content type
lacks "pdf", the first 5 stream bytes are probed; on a magic match the
probe bytes are written followed by the remainder of the stream. -/
def download_pdf : HttpOutcome → DownloadResult
  | .transportError => ⟨false, none⟩
  | .response ct body =>
    if containsSub (str "pdf") (lowerStr ct) then ⟨true, some body⟩
    else
      let firstBytes := body.take 5
      if firstBytes = pdfMagic then ⟨true, some (firstBytes ++ body.drop 5)⟩
      else ⟨false, none⟩

/-! ### `_fetch_from_unpaywall` (resolver stage) -/

/-- One entry of the resolver response's location lists; `none` models an
absent key and `some []` an empty string (both falsy in the source). -/
structure OaLocation where
  url_for_pdf : Option (List Char)
  url : Option (List Char)
deriving DecidableEq

/-- The resolver's JSON payload: `best_oa_location` and `oa_locations`. -/
structure UnpaywallPayload where
  best_oa_location : Option OaLocation
  oa_locations : List OaLocation
deriving DecidableEq

/-- The URLs contributed by one location: `url_for_pdf` first, then `url`,
skipping absent or empty values (Python truthiness). -/
def locUrls (l : OaLocation) : List (List Char) :=
  (match l.url_for_pdf with
   | some u => if u.isEmpty then [] else [u]
   | none => []) ++
  (match l.url with
   | some u => if u.isEmpty then [] else [u]
   | none => [])

/-- Candidate URLs from the `best_oa_location` entry (`payload.get(...) or
{}` yields the empty dict when absent). -/
def bestCandidates (p : UnpaywallPayload) : List (List Char) :=
  match p.best_oa_location with
  | some b => locUrls b
  | none => []

/-- Candidate URLs from the `oa_locations` entries, in listing order. -/
def locationCandidates (p : UnpaywallPayload) : List (List Char) :=
  (p.oa_locations.map locUrls).flatten

/-- The raw candidate list built by `_fetch_from_unpaywall`. -/
def unpaywallCandidates (p : UnpaywallPayload) : List (List Char) :=
  bestCandidates p ++ locationCandidates p

/-- `list(dict.fromkeys(candidate_urls))`: drop duplicates, keeping the
first occurrence of each URL in order. -/
def dedupFirst (seen : List (List Char)) : List (List Char) → List (List Char)
  | [] => []
  | x :: xs => if x ∈ seen then dedupFirst seen xs else x :: dedupFirst (x :: seen) xs

/-- Index of the first occurrence of `x` (length of the list when absent);
used to state that deduplication preserves first-seen order. -/
def firstIdx (x : List Char) : List (List Char) → Nat
  | [] => 0
  | y :: ys => if y = x then 0 else firstIdx x ys + 1

/-- The download loop over candidate URLs, instrumented with the URLs
actually attempted; stops at the first successful download. -/
def try_urls (dl : List Char → HttpOutcome) : List (List Char) → List (List Char) × Bool
  | [] => ([], false)
  | u :: us =>
    if (download_pdf (dl u)).ok then ([u], true)
    else
      let r := try_urls dl us
      (u :: r.1, r.2)

/-- `_fetch_from_unpaywall`, instrumented: `none` for the payload models a
failed resolver lookup (network error caught and turned into `False`). -/
def fetch_from_unpaywall_trace (dl : List Char → HttpOutcome)
    (payload : Option UnpaywallPayload) : List (List Char) × Bool :=
  match payload with
  | none => ([], false)
  | some p => try_urls dl (dedupFirst [] (unpaywallCandidates p))

/-! ### `_fetch_from_scihub` (mirror stage) -/

/-- Behaviour of one mirror's lookup request for the DOI at hand: transport
failure, a direct PDF payload, or an HTML page from which
`_extract_scihub_pdf_url` extracts an optional PDF link (the BeautifulSoup
selector scan is abstracted by its result). -/
inductive MirrorResp where
  | netError : MirrorResp
  | pdfPayload (content : List Nat) : MirrorResp
  | htmlPage (pdfUrl : Option (List Char)) : MirrorResp
deriving DecidableEq

/-- Whether one mirror iteration ends in `return True`. -/
def mirrorStep (dl : List Char → HttpOutcome) : MirrorResp → Bool
  | .netError => false
  | .pdfPayload _ => true
  | .htmlPage none => false
  | .htmlPage (some u) => (download_pdf (dl u)).ok

/-- `_fetch_from_scihub`, instrumented with the indices of the mirrors whose
lookup request is issued; every iteration up to and including the first
successful one contacts its mirror. -/
def fetch_from_scihub_trace (dl : List Char → HttpOutcome) :
    List MirrorResp → List Nat × Bool
  | [] => ([], false)
  | m :: ms =>
    if mirrorStep dl m then ([0], true)
    else
      let r := fetch_from_scihub_trace dl ms
      (0 :: r.1.map (· + 1), r.2)

/-! ### `fetch_pdf` (acquisition waterfall) -/

/-- `[^A-Za-z0-9._-]` complement test used by `_safe_filename`. -/
def isSafeChar (c : Char) : Bool :=
  ('A' ≤ c && c ≤ 'Z') || ('a' ≤ c && c ≤ 'z') || ('0' ≤ c && c ≤ '9') ||
    c = '.' || c = '_' || c = '-'

/-- `re.sub(r"[^A-Za-z0-9._-]+", "_", s)`: each maximal unsafe run becomes
a single underscore (the flag records being inside such a run). -/
def collapseUnsafe : Bool → List Char → List Char
  | _, [] => []
  | inRun, c :: rest =>
    if isSafeChar c then c :: collapseUnsafe false rest
    else if inRun then collapseUnsafe true rest
    else '_' :: collapseUnsafe true rest

/-- `_safe_filename` from `pdf_fetcher.py`. -/
def safe_filename (title doi : List Char) : List Char :=
  let compactTitle := (collapseUnsafe false (strip title)).take 100
  let compactTitle := if compactTitle.isEmpty then str "paper" else compactTitle
  let compactDoi := (collapseUnsafe false (strip doi)).take 50
  compactTitle ++ '_' :: compactDoi ++ str ".pdf"

/-- The read-only configuration record.  Mirror hosts are identified with
the behaviour their lookup URL exhibits in the modelled environment
(`MirrorResp`); only their count and order matter to the waterfall. -/
structure Config where
  unpaywallEmail : List Char
  scihubMirrors : List MirrorResp
  downloadDir : List Char

/-- Environment of one `fetch_pdf` run: whether the config file exists, its
contents, the resolver lookup result, and the transport behaviour of every
candidate-URL download. -/
structure FetchEnv where
  configExists : Bool
  config : Config
  unpaywall : Option UnpaywallPayload
  dl : List Char → HttpOutcome

/-- Observable side effects of a `fetch_pdf` run. -/
structure FetchTrace where
  sessionBuilt : Bool
  unpaywallQueried : Bool
  urlsTried : List (List Char)
  mirrorsContacted : List Nat
deriving DecidableEq

def emptyTrace : FetchTrace := ⟨false, false, [], []⟩

/-- A concrete environment: config present, resolver email configured, the
resolver offers one working URL, and four mirrors of which only the third
would succeed. -/
def envC4 : FetchEnv where
  configExists := true
  config :=
    { unpaywallEmail := str "user@example.org"
      scihubMirrors := [.netError, .htmlPage none, .pdfPayload [37], .pdfPayload [1]]
      downloadDir := str "pdfs" }
  unpaywall := some
    { best_oa_location := some { url_for_pdf := some (str "https://oa.example/a.pdf"), url := none }
      oa_locations := [] }
  dl := fun _ => .response (str "application/pdf") []

/-- A concrete environment with no config file. -/
def envC6bad : FetchEnv where
  configExists := false
  config :=
    { unpaywallEmail := [], scihubMirrors := [], downloadDir := str "pdfs" }
  unpaywall := none
  dl := fun _ => .transportError

/-- `fetch_pdf` from `pdf_fetcher.py`, instrumented.  A missing config file
raises (`Except.error`); every other outcome is an ordinary return.  The
DOI is normalized and (redundantly) re-validated before anything else; an
invalid DOI returns `(None, None)` before the config is even read. -/
def fetch_pdf (env : FetchEnv) (doi title : List Char) :
    Except (List Char) (Option (List Char × List Char) × FetchTrace) :=
  match DoiUtils.normalize_doi doi with
  | none => .ok (none, emptyTrace)
  | some cleaned =>
    if ¬ (DoiUtils.is_valid_doi cleaned = true) then .ok (none, emptyTrace)
    else if ¬ (env.configExists = true) then .error (str "Config file not found")
    else
      let cfg := env.config
      let destination := cfg.downloadDir ++ '/' :: safe_filename title cleaned
      let emailOk := ¬ cfg.unpaywallEmail.isEmpty
      let up := if emailOk then fetch_from_unpaywall_trace env.dl env.unpaywall
                else ([], false)
      if emailOk ∧ up.2 = true then
        .ok (some (destination, str "unpaywall"), ⟨true, emailOk, up.1, []⟩)
      else
        let sh := fetch_from_scihub_trace env.dl cfg.scihubMirrors
        if sh.2 = true then
          .ok (some (destination, str "sci-hub"), ⟨true, emailOk, up.1, sh.1⟩)
        else
          .ok (none, ⟨true, emailOk, up.1, sh.1⟩)

end PdfFetcher

namespace ScholarSearch

open DoiUtils

/-! ### `scholar_search.py`: DOI extraction -/

/-- Attempt of `DOI_PATTERN = 10\.\d{4,}/\S+` anchored at the start: like
`doi_utils`' pattern but with NO upper bound on the digit count. -/
def findDoiAtS : List Char → Option (List Char)
  | '1' :: '0' :: '.' :: rest =>
    let ds := rest.takeWhile Char.isDigit
    if 4 ≤ ds.length then
      match rest.dropWhile Char.isDigit with
      | '/' :: t =>
        let suf := t.takeWhile (fun c => !pyIsSpace c)
        if suf.isEmpty then none
        else some ('1' :: '0' :: '.' :: (ds ++ '/' :: suf))
      | _ => none
    else none
  | _ => none

/-- `DOI_PATTERN.search`: leftmost match. -/
def searchDoiS : List Char → Option (List Char)
  | [] => none
  | c :: cs =>
    match findDoiAtS (c :: cs) with
    | some m => some m
    | none => searchDoiS cs

/-- The punctuation set of `rstrip(".,;)")` — note: no colon here, unlike
`doi_utils.clean_doi`. -/
def punctS (c : Char) : Bool := c = '.' || c = ',' || c = ';' || c = ')'

/-- `match.group(0).rstrip(".,;)")`. -/
def rstripPunctS (s : List Char) : List Char :=
  (s.reverse.dropWhile punctS).reverse

/-- `_extract_doi(*candidates)`: first candidate with a match wins; falsy
(empty) candidates are skipped. -/
def extract_doi_scholar : List (List Char) → Option (List Char)
  | [] => none
  | v :: vs =>
    if v.isEmpty then extract_doi_scholar vs
    else
      match searchDoiS v with
      | some m => some (rstripPunctS m)
      | none => extract_doi_scholar vs

/-! ### `_extract_year`, `_extract_authors`, `_extract_citations` -/

/-- Regex word characters (`\w` over ASCII), for `\b` boundaries. -/
def isWordChar (c : Char) : Bool := c.isAlpha || c.isDigit || c = '_'

def boundaryOk : Option Char → Bool
  | none => true
  | some c => !isWordChar c

def charsToNum (c1 c2 c3 c4 : Char) : Nat :=
  (c1.toNat - 48) * 1000 + (c2.toNat - 48) * 100 + (c3.toNat - 48) * 10 + (c4.toNat - 48)

/-- `re.search(r"\b(19|20)\d{2}\b", blob)` with the previous character
threaded for the left word boundary. -/
def findYear (prev : Option Char) : List Char → Option Nat
  | c1 :: c2 :: c3 :: c4 :: rest =>
    if boundaryOk prev &&
        (((c1 = '1' && c2 = '9') || (c1 = '2' && c2 = '0')) &&
          (c3.isDigit && c4.isDigit)) &&
        (match rest with
         | [] => true
         | c5 :: _ => !isWordChar c5) then
      some (charsToNum c1 c2 c3 c4)
    else findYear (some c1) (c2 :: c3 :: c4 :: rest)
  | _ => none

/-- `_extract_year` from `scholar_search.py`. -/
def extract_year (blob : List Char) : Option Nat := findYear none blob

/-- The authors segment: the part of the metadata line before the first
whitespace-or-nbsp followed by a dash (`re.split(r'[\xa0\s]-', blob, 1)[0]`). -/
def authorsSeg : List Char → List Char
  | a :: b :: rest =>
    if (pyIsSpace a || a = '\xA0') && b = '-' then []
    else a :: authorsSeg (b :: rest)
  | l => l

/-- `_extract_authors` from `scholar_search.py`. -/
def extract_authors (blob : List Char) : List (List Char) :=
  (((authorsSeg blob).splitOn ',').map strip).filter (fun a => !a.isEmpty)

def digitsToNat (ds : List Char) : Nat := ds.foldl (fun n c => n * 10 + (c.toNat - 48)) 0

/-- Attempt of `Cited by\s+(\d+)` (case-insensitive) anchored at the start. -/
def citedAt : List Char → Option Nat
  | c1 :: c2 :: c3 :: c4 :: c5 :: c6 :: c7 :: c8 :: rest =>
    if lowerStr [c1, c2, c3, c4, c5, c6, c7, c8] = str "cited by" then
      let sp := rest.takeWhile pyIsSpace
      if sp.isEmpty then none
      else
        let after := rest.dropWhile pyIsSpace
        let ds := after.takeWhile Char.isDigit
        if ds.isEmpty then none else some (digitsToNat ds)
    else none
  | _ => none

def searchCited : List Char → Option Nat
  | [] => none
  | c :: cs =>
    match citedAt (c :: cs) with
    | some n => some n
    | none => searchCited cs

/-- `_extract_citations`: first link text with a "Cited by N" match wins,
else 0. -/
def extract_citations : List (List Char) → Nat
  | [] => 0
  | l :: ls =>
    match searchCited l with
    | some n => n
    | none => extract_citations ls

/-! ### `_parse_results` and the pagination loop -/

/-- One `div.gs_r.gs_or.gs_scl` block, abstracted by what the structural
selectors extract from it: the title text (absent when no `h3.gs_rt`
element, in which case the block is skipped), the title anchor's href, the
snippet text, the `div.gs_a` metadata line, and the `.gs_fl a` link texts. -/
structure RawResult where
  title : Option (List Char)
  url : List Char
  snippet : List Char
  authorsText : List Char
  linkTexts : List (List Char)
deriving DecidableEq

/-- One normalized metadata record. -/
structure Entry where
  title : List Char
  authors : List (List Char)
  year : Option Nat
  doi : Option (List Char)
  url : List Char
  snippet : List Char
  citations : Nat
deriving DecidableEq

/-- The per-entry construction of `_parse_results` (lines 100–108). -/
def mkEntry (r : RawResult) (t : List Char) : Entry where
  title := t
  authors := extract_authors r.authorsText
  year := extract_year r.authorsText
  doi := extract_doi_scholar [t, r.url, r.snippet]
  url := r.url
  snippet := r.snippet
  citations := extract_citations r.linkTexts

/-- `_parse_results`: blocks without a title element are skipped. -/
def parse_results (page : List RawResult) : List Entry :=
  page.filterMap (fun r => r.title.map (mkEntry r))

/-- One Scholar page fetch, classified: transport failure (after the
session's own retries), a rate-limit response (HTTP 429 or marker phrases
in the body), or a parsed page of result blocks. -/
inductive PageResp where
  | netError : PageResp
  | rateLimited : PageResp
  | page (blocks : List RawResult) : PageResp

/-- The entries a page response contributes. -/
def pageEntries : PageResp → List Entry
  | .page blocks => parse_results blocks
  | _ => []

/-- The `while` loop of `search_scholar`, instrumented with the offsets
fetched.  Transport failures and rate limits back off and retry the same
offset, bounded by 4 consecutive attempts; an empty page ends pagination;
a non-empty page is appended, the offset advances by 10 and the attempt
counter resets. -/
def search_loop (backend : Nat → PageResp) (maxResults : Nat)
    (results : List Entry) (start attempts : Nat) : List Entry × List Nat :=
  if h : results.length < maxResults ∧ attempts < 4 then
    match backend start with
    | .netError =>
      let r := search_loop backend maxResults results start (attempts + 1)
      (r.1, start :: r.2)
    | .rateLimited =>
      let r := search_loop backend maxResults results start (attempts + 1)
      (r.1, start :: r.2)
    | .page blocks =>
      let entries := parse_results blocks
      if hne : entries.isEmpty then (results, [start])
      else
        let r := search_loop backend maxResults (results ++ entries) (start + 10) 0
        (r.1, start :: r.2)
  else (results, [])
termination_by (maxResults - results.length) * 5 + (4 - attempts)
decreasing_by
  all_goals
    first
    | omega
    | (have hlen : 0 < (parse_results blocks).length := by
         have he : entries = parse_results blocks := rfl
         refine List.length_pos.mpr fun hnil => ?_
         rw [he, hnil] at hne
         simp at hne
       have hl2 : (results ++ parse_results blocks).length
           = results.length + (parse_results blocks).length := List.length_append _ _
       omega)

/-- Observable behaviour of one `search_scholar` call. -/
structure SearchRun where
  results : List Entry
  offsetsFetched : List Nat
  sessionBuilt : Bool
deriving DecidableEq

/-- A raw block whose title is a DOI-shaped string with an 11-digit
registrant. -/
def blk9r : RawResult where
  title := some (str "10.12345678901/x")
  url := []
  snippet := []
  authorsText := []
  linkTexts := []

/-- A backend whose every page holds exactly that block. -/
def bk9 : List Char → Nat → PageResp := fun _ _ => .page [blk9r]

/-- `search_scholar` from `scholar_search.py`: a non-positive
`max_results` short-circuits to `[]` before the session is built; the
final list is truncated to `max_results`. -/
def search_scholar (backend : List Char → Nat → PageResp) (query : List Char)
    (maxResults : Int) : SearchRun :=
  if maxResults ≤ 0 then ⟨[], [], false⟩
  else
    let r := search_loop (backend query) maxResults.toNat [] 0 0
    ⟨r.1.take maxResults.toNat, r.2, true⟩

end ScholarSearch

namespace DoiUtils

/-! ### Generic list lemmas -/

theorem listStartsWith_append (p t : List Char) :
    listStartsWith p (p ++ t) = true := by
  induction p with
  | nil => rfl
  | cons a as ih => simpa [listStartsWith] using ih

theorem listStartsWith_ne_head (a b : Char) (as bs : List Char) (h : a ≠ b) :
    listStartsWith (a :: as) (b :: bs) = false := by
  simp [listStartsWith, h]

theorem takeWhile_run_append (p : Char → Bool) (l : List Char) (c : Char) (t : List Char)
    (hl : ∀ x ∈ l, p x = true) (hc : p c = false) :
    (l ++ c :: t).takeWhile p = l ∧ (l ++ c :: t).dropWhile p = c :: t := by
  induction l with
  | nil => simp [List.takeWhile_cons, List.dropWhile_cons, hc]
  | cons a as ih =>
    have ha : p a = true := hl a (by simp)
    have has : ∀ x ∈ as, p x = true := fun x hx => hl x (by simp [hx])
    obtain ⟨h1, h2⟩ := ih has
    constructor <;> simp [List.takeWhile_cons, List.dropWhile_cons, ha, h1, h2]

theorem dropWhile_stop_append (p : Char → Bool) (a : List Char) (c : Char) (b : List Char)
    (hc : p c = false) :
    (a ++ c :: b).dropWhile p = a.dropWhile p ++ c :: b := by
  induction a with
  | nil => simp [List.dropWhile_cons, hc]
  | cons x xs ih =>
    by_cases hx : p x = true
    · simpa [List.dropWhile_cons, hx] using ih
    · simp [List.dropWhile_cons, hx]

theorem strip_of_nonspace (l : List Char) (h : ∀ x ∈ l, pyIsSpace x = false) :
    strip l = l := by
  unfold strip
  have h1 : l.dropWhile pyIsSpace = l := by
    cases l with
    | nil => rfl
    | cons a as => simp [List.dropWhile_cons, h a (by simp)]
  rw [h1]
  have h2 : l.reverse.dropWhile pyIsSpace = l.reverse := by
    cases hr : l.reverse with
    | nil => rfl
    | cons a as =>
      have : a ∈ l := by
        have : a ∈ l.reverse := by rw [hr]; simp
        simpa using this
      simp [List.dropWhile_cons, h a this]
  rw [h2, List.reverse_reverse]

theorem strip_append_nonspace (d q : List Char) (hd : d ≠ [])
    (hhead : ∀ c, d.head? = some c → pyIsSpace c = false)
    (hlast : ∀ c, d.getLast? = some c → pyIsSpace c = false) :
    strip (d ++ q) = d ++ stripRight q := by
  obtain ⟨c, cs, rfl⟩ := List.exists_cons_of_ne_nil hd
  have hc : pyIsSpace c = false := hhead c rfl
  unfold strip stripRight
  have h1 : ((c :: cs) ++ q).dropWhile pyIsSpace = (c :: cs) ++ q := by
    simp [List.dropWhile_cons, hc]
  rw [h1]
  obtain ⟨d', e, hde⟩ : ∃ d' e, c :: cs = d' ++ [e] :=
    ⟨(c :: cs).dropLast, (c :: cs).getLast (by simp),
      (List.dropLast_append_getLast (by simp)).symm⟩
  have he : pyIsSpace e = false := by
    apply hlast
    rw [hde]
    simp
  rw [hde]
  have : (d' ++ [e] ++ q).reverse = q.reverse ++ e :: d'.reverse := by
    simp
  rw [this, dropWhile_stop_append _ _ _ _ he]
  simp

/-! ### C8: shape of `is_valid_doi` -/

theorem strip_nil : strip [] = [] := rfl

theorem doiCoreMatch_parts (ds suf : List Char)
    (hds : ∀ x ∈ ds, Char.isDigit x = true) (h4 : 4 ≤ ds.length) (h9 : ds.length ≤ 9)
    (hsuf : suf ≠ []) (hns : ∀ x ∈ suf, pyIsSpace x = false) :
    doiCoreMatch (str "10." ++ ds ++ '/' :: suf) = true := by
  have hslash : Char.isDigit '/' = false := by decide
  obtain ⟨ht, hd⟩ := takeWhile_run_append Char.isDigit ds '/' suf hds hslash
  show doiCoreMatch ('1' :: '0' :: '.' :: (ds ++ '/' :: suf)) = true
  simp only [doiCoreMatch, ht, hd]
  simp only [Bool.and_eq_true, decide_eq_true_eq, List.all_eq_true, Bool.not_eq_true']
  refine ⟨⟨h4, h9⟩, ?_, ?_⟩
  · simp [List.isEmpty_eq_true, hsuf]
  · exact hns

/-- C8: `is_valid_doi` succeeds exactly on strings whose whitespace-stripped
form is `10.` + 4–9 digits + `/` + a non-empty whitespace-free suffix. -/
theorem is_valid_doi_iff (s : List Char) :
    is_valid_doi s = true ↔
      ∃ ds suf : List Char,
        strip s = str "10." ++ ds ++ '/' :: suf ∧
        (∀ x ∈ ds, Char.isDigit x = true) ∧ 4 ≤ ds.length ∧ ds.length ≤ 9 ∧
        suf ≠ [] ∧ (∀ x ∈ suf, pyIsSpace x = false) := by
  constructor
  · intro h
    unfold is_valid_doi at h
    split at h
    · exact absurd h (by simp)
    · revert h
      unfold doiCoreMatch
      split
      · next heq =>
        intro h
        simp only [Bool.and_eq_true, decide_eq_true_eq] at h
        obtain ⟨⟨h4, h9⟩, hrest⟩ := h
        revert hrest
        split
        · next rest _ suf hdw =>
          intro hrest
          simp only [Bool.and_eq_true, Bool.not_eq_true', List.all_eq_true] at hrest
          obtain ⟨hne, hns⟩ := hrest
          refine ⟨rest.takeWhile Char.isDigit, suf, ?_, ?_, h4, h9, ?_, hns⟩
          · rw [heq]
            show _ = '1' :: '0' :: '.' :: _
            congr 1; congr 1; congr 1
            rw [← hdw]
            exact (List.takeWhile_append_dropWhile Char.isDigit rest).symm
          · intro x hx
            have := List.all_takeWhile (p := Char.isDigit) (l := rest)
            rw [List.all_eq_true] at this
            exact this x hx
          · simpa [List.isEmpty_eq_true] using hne
        · intro h; exact absurd h (by simp)
      · next hno =>
        intro h; exact absurd h (by simp)
  · rintro ⟨ds, suf, hs, hds, h4, h9, hsuf, hns⟩
    unfold is_valid_doi
    have hmatch : doiCoreMatch (strip s) = true := by
      rw [hs]; exact doiCoreMatch_parts ds suf hds h4 h9 hsuf hns
    split
    · next hemp =>
      exfalso
      have : s = [] := by simpa [List.isEmpty_eq_true] using hemp
      rw [this, strip_nil] at hs
      exact absurd hs (by simp [str])
    · exact hmatch

end DoiUtils

namespace DoiUtils

/-! ### C2: the trailing-numeric-fragment heuristic -/

theorem rsplitSlash_no_slash (s : List Char) (h : '/' ∉ s) :
    rsplitSlash s = none := by
  induction s with
  | nil => rfl
  | cons c cs ih =>
    have hcs : '/' ∉ cs := fun hx => h (by simp [hx])
    have hc : c ≠ '/' := fun hx => h (by simp [hx])
    simp [rsplitSlash, ih hcs, hc]

theorem rsplitSlash_last (pre seg : List Char) (h : '/' ∉ seg) :
    rsplitSlash (pre ++ '/' :: seg) = some (pre, seg) := by
  induction pre with
  | nil => simp [rsplitSlash, rsplitSlash_no_slash seg h]
  | cons c cs ih => simp [rsplitSlash, ih]

theorem stripNumFragment_strips (pre seg : List Char) (h : '/' ∉ seg)
    (h1 : seg ≠ []) (h2 : ∀ x ∈ seg, Char.isDigit x = true)
    (h3 : 6 ≤ seg.length) (h4 : seg.length ≤ 8) :
    stripNumFragment (pre ++ '/' :: seg) = pre := by
  unfold stripNumFragment
  rw [rsplitSlash_last pre seg h]
  have : ((!seg.isEmpty) && seg.all Char.isDigit
      && (decide (6 ≤ seg.length) && decide (seg.length ≤ 8))) = true := by
    simp only [Bool.and_eq_true, Bool.not_eq_true', List.all_eq_true, decide_eq_true_eq,
      List.isEmpty_eq_false]
    exact ⟨⟨h1, h2⟩, h3, h4⟩
  simp [this]

theorem stripNumFragment_keeps (pre seg : List Char) (h : '/' ∉ seg)
    (hP : ¬(seg ≠ [] ∧ (∀ x ∈ seg, Char.isDigit x = true) ∧
            6 ≤ seg.length ∧ seg.length ≤ 8)) :
    stripNumFragment (pre ++ '/' :: seg) = pre ++ '/' :: seg := by
  unfold stripNumFragment
  rw [rsplitSlash_last pre seg h]
  have : ((!seg.isEmpty) && seg.all Char.isDigit
      && (decide (6 ≤ seg.length) && decide (seg.length ≤ 8))) = false := by
    rw [Bool.eq_false_iff]
    intro hb
    simp only [Bool.and_eq_true, Bool.not_eq_true', List.all_eq_true,
      decide_eq_true_eq] at hb
    refine hP ⟨?_, hb.1.2, hb.2.1, hb.2.2⟩
    intro hnil
    rw [hnil] at hb
    simp at hb
  simp [this]

theorem stripNumFragment_last (pre seg : List Char) (h : '/' ∉ seg) :
    stripNumFragment (pre ++ '/' :: seg) =
      if seg ≠ [] ∧ (∀ x ∈ seg, Char.isDigit x = true) ∧ 6 ≤ seg.length ∧ seg.length ≤ 8
      then pre else pre ++ '/' :: seg := by
  by_cases hP : seg ≠ [] ∧ (∀ x ∈ seg, Char.isDigit x = true) ∧ 6 ≤ seg.length ∧ seg.length ≤ 8
  · rw [if_pos hP]
    exact stripNumFragment_strips pre seg h hP.1 hP.2.1 hP.2.2.1 hP.2.2.2
  · rw [if_neg hP]
    exact stripNumFragment_keeps pre seg h hP

theorem stripNumFragment_id_of_no_slash (s : List Char) (h : '/' ∉ s) :
    stripNumFragment s = s := by
  unfold stripNumFragment
  rw [rsplitSlash_no_slash s h]


/-- C8: `is_valid_doi` returns true iff, after trimming surrounding
whitespace only, the candidate matches the full canonical DOI shape:
`10.` followed by 4–9 decimal digits, a `/`, and a non-empty run of
non-whitespace characters. -/
theorem C8_validate_canonical_shape : ∀ s : List Char,
    is_valid_doi s = true ↔
      ∃ ds suf : List Char,
        strip s = str "10." ++ ds ++ '/' :: suf ∧
        (∀ x ∈ ds, Char.isDigit x = true) ∧ 4 ≤ ds.length ∧ ds.length ≤ 9 ∧
        suf ≠ [] ∧ (∀ x ∈ suf, pyIsSpace x = false) :=
  is_valid_doi_iff

/-- C2: `clean_doi`'s final-segment heuristic removes the part after the
last `/` exactly when it is all digits and 6–8 characters long; the 9-digit
suffix of `10.1177/2041905820911746` is kept, the 6-digit fragment
`/1307371` is removed, and all-digit final segments of length ≤ 5 or ≥ 9
are never stripped. -/
theorem C2_fragment_heuristic :
    (∀ pre seg : List Char, '/' ∉ seg →
      stripNumFragment (pre ++ '/' :: seg) =
        if seg ≠ [] ∧ (∀ x ∈ seg, Char.isDigit x = true) ∧ 6 ≤ seg.length ∧ seg.length ≤ 8
        then pre else pre ++ '/' :: seg) ∧
    (∀ s : List Char, '/' ∉ s → stripNumFragment s = s) ∧
    clean_doi (str "10.1177/2041905820911746") = some (str "10.1177/2041905820911746") ∧
    clean_doi (str "10.1108/REPS-12-2024-0104/1307371") = some (str "10.1108/REPS-12-2024-0104") ∧
    clean_doi (str "10.1234/12345") = some (str "10.1234/12345") ∧
    clean_doi (str "10.1234/123456789") = some (str "10.1234/123456789") :=
  ⟨stripNumFragment_last, stripNumFragment_id_of_no_slash,
    by decide, by decide, by decide, by decide⟩

/-- Witness for C2: the heuristic applied at a concrete input — the 6-digit
trailing fragment of `10.1108/1307371` is stripped. -/
theorem C2_fragment_heuristic_witness :
    stripNumFragment (str "10.1108" ++ '/' :: str "1307371") = str "10.1108" :=
  (C2_fragment_heuristic.1 (str "10.1108") (str "1307371") (by decide)).trans (by decide)

/-- C1 is false as stated: `10.1234/123456` is a well-formed DOI (it
validates), the input below contains it wrapped in a resolver URL with a
trailing query string, yet `normalize_doi` yields `none` rather than the
bare DOI — the 6-digit suffix is destroyed by the cleaning heuristic.  The
same happens with no wrapper at all. -/
theorem C1_counterexample :
    is_valid_doi (str "10.1234/123456") = true ∧
    containsSub (str "10.1234/123456") (str "https://doi.org/10.1234/123456?x=1") = true ∧
    normalize_doi (str "https://doi.org/10.1234/123456?x=1") = none ∧
    normalize_doi (str "10.1234/123456") = none ∧
    (is_valid_doi (str "10.1234/ab&c") = true ∧
      normalize_doi (str "10.1234/ab&c") = some (str "10.1234/ab")) ∧
    (is_valid_doi (str "10.1234/abc)") = true ∧
      normalize_doi (str "10.1234/abc)") = some (str "10.1234/abc")) := by
  refine ⟨by decide, by decide, by decide, by decide, ⟨by decide, by decide⟩,
    by decide, by decide⟩

/-! ### C1: helper lemmas for the amended normalization property -/

theorem digit_nonspace (c : Char) (h : c.isDigit = true) : pyIsSpace c = false := by
  have n1 : ¬ c = ' ' := fun hc => by subst hc; exact absurd h (by decide)
  have n2 : ¬ c = '\t' := fun hc => by subst hc; exact absurd h (by decide)
  have n3 : ¬ c = '\n' := fun hc => by subst hc; exact absurd h (by decide)
  have n4 : ¬ c = '\r' := fun hc => by subst hc; exact absurd h (by decide)
  have n5 : ¬ c = '\x0b' := fun hc => by subst hc; exact absurd h (by decide)
  have n6 : ¬ c = '\x0c' := fun hc => by subst hc; exact absurd h (by decide)
  simp [pyIsSpace, n1, n2, n3, n4, n5, n6]

theorem digit_not_query (c : Char) (h : c.isDigit = true) :
    (!(c = '&' || c = '?')) = true := by
  have n1 : ¬ c = '&' := fun hc => by subst hc; exact absurd h (by decide)
  have n2 : ¬ c = '?' := fun hc => by subst hc; exact absurd h (by decide)
  simp [n1, n2]

theorem digit_not_amp (c : Char) (h : c.isDigit = true) : c ≠ '&' :=
  fun hc => by subst hc; exact absurd h (by decide)

theorem replaceAmp_no_amp (l : List Char) (h : ∀ x ∈ l, x ≠ '&') :
    replaceAmp l = l := by
  induction l with
  | nil => rfl
  | cons c cs ih =>
    have hc : c ≠ '&' := h c (by simp)
    have hcs : ∀ x ∈ cs, x ≠ '&' := fun x hx => h x (by simp [hx])
    rw [replaceAmp.eq_def]
    split
    · next rest heq =>
      exfalso
      injection heq with h1 h2
      exact hc h1
    · next c' rest heq =>
      injection heq with h1 h2
      subst h1
      subst h2
      rw [ih hcs]
    · next heq => exact absurd heq (by simp)

theorem stripRight_nil : stripRight [] = [] := rfl

theorem stripRight_cons (c : Char) (q : List Char) (hc : pyIsSpace c = false) :
    stripRight (c :: q) = c :: stripRight q := by
  unfold stripRight
  rw [List.reverse_cons, dropWhile_stop_append pyIsSpace q.reverse c [] hc]
  simp

theorem rstripPunct_last (a : List Char) (e : Char)
    (he : (e = '.' || e = ',' || e = ';' || e = ':' || e = ')') = false) :
    rstripPunct (a ++ [e]) = a ++ [e] := by
  unfold rstripPunct
  rw [List.reverse_append]
  show ((([e].reverse) ++ a.reverse).dropWhile _).reverse = _
  rw [List.reverse_singleton]
  show (((e :: []) ++ a.reverse).dropWhile _).reverse = _
  rw [List.cons_append, List.nil_append, List.dropWhile_cons_of_neg (by simp [he])]
  simp

theorem cutQuery_all (l : List Char) (h : ∀ x ∈ l, (!(x = '&' || x = '?')) = true) :
    cutQuery l = l := by
  unfold cutQuery
  rw [List.takeWhile_eq_self_iff]
  exact h

theorem cutQuery_stop (l : List Char) (c : Char) (t : List Char)
    (h : ∀ x ∈ l, (!(x = '&' || x = '?')) = true)
    (hc : (!(c = '&' || c = '?')) = false) :
    cutQuery (l ++ c :: t) = l :=
  (takeWhile_run_append _ l c t h hc).1

theorem findDoiAt_not_one (c : Char) (t : List Char) (h : c ≠ '1') :
    findDoiAt (c :: t) = none := by
  rw [findDoiAt.eq_def]
  split
  · next rest heq =>
    exfalso
    injection heq with h1 h2
    exact h h1
  · rfl

theorem searchDoi_skip (w t : List Char) (h : ∀ c ∈ w, c ≠ '1') :
    searchDoi (w ++ t) = searchDoi t := by
  induction w with
  | nil => rfl
  | cons c cs ih =>
    have hc : c ≠ '1' := h c (by simp)
    have hcs : ∀ x ∈ cs, x ≠ '1' := fun x hx => h x (by simp [hx])
    show searchDoi (c :: (cs ++ t)) = searchDoi t
    rw [searchDoi.eq_def]
    simp only [findDoiAt_not_one c (cs ++ t) hc]
    exact ih hcs

theorem findDoiAt_match (ds suf q : List Char)
    (hds : ∀ x ∈ ds, Char.isDigit x = true) (h4 : 4 ≤ ds.length) (h9 : ds.length ≤ 9)
    (hsuf : suf ≠ []) (hns : ∀ x ∈ suf, pyIsSpace x = false) :
    findDoiAt ('1' :: '0' :: '.' :: (ds ++ '/' :: (suf ++ q))) =
      some ('1' :: '0' :: '.' ::
        (ds ++ '/' :: (suf ++ q.takeWhile (fun c => !pyIsSpace c)))) := by
  obtain ⟨htw, hdw⟩ :=
    takeWhile_run_append Char.isDigit ds '/' (suf ++ q) hds (by decide)
  have hsuftw : (suf ++ q).takeWhile (fun c => !pyIsSpace c)
      = suf ++ q.takeWhile (fun c => !pyIsSpace c) :=
    List.takeWhile_append_of_pos (by intro a ha; simp [hns a ha])
  simp only [findDoiAt, htw, hdw]
  rw [if_pos ⟨h4, h9⟩]
  simp only [hsuftw]
  rw [if_neg (by simp [List.isEmpty_eq_true, hsuf])]

theorem dropUrlHead_ten (t : List Char) :
    dropUrlHead doiUrlHeads ('1' :: t) = '1' :: t := by
  have htl : Char.toLower '1' = '1' := by decide
  have hm : lowerStr ('1' :: t) = '1' :: lowerStr t := by
    simp [lowerStr, htl]
  have c1 : listStartsWith (lowerStr (str "https://doi.org/")) ('1' :: lowerStr t) = false := by
    have e : lowerStr (str "https://doi.org/") = 'h' :: lowerStr (str "ttps://doi.org/") := by
      decide
    rw [e]
    exact listStartsWith_ne_head _ _ _ _ (by decide)
  have c2 : listStartsWith (lowerStr (str "http://doi.org/")) ('1' :: lowerStr t) = false := by
    have e : lowerStr (str "http://doi.org/") = 'h' :: lowerStr (str "ttp://doi.org/") := by
      decide
    rw [e]
    exact listStartsWith_ne_head _ _ _ _ (by decide)
  have c3 : listStartsWith (lowerStr (str "https://dx.doi.org/")) ('1' :: lowerStr t) = false := by
    have e : lowerStr (str "https://dx.doi.org/") = 'h' :: lowerStr (str "ttps://dx.doi.org/") := by
      decide
    rw [e]
    exact listStartsWith_ne_head _ _ _ _ (by decide)
  have c4 : listStartsWith (lowerStr (str "http://dx.doi.org/")) ('1' :: lowerStr t) = false := by
    have e : lowerStr (str "http://dx.doi.org/") = 'h' :: lowerStr (str "ttp://dx.doi.org/") := by
      decide
    rw [e]
    exact listStartsWith_ne_head _ _ _ _ (by decide)
  have c5 : listStartsWith (lowerStr (str "doi:")) ('1' :: lowerStr t) = false := by
    have e : lowerStr (str "doi:") = 'd' :: lowerStr (str "oi:") := by decide
    rw [e]
    exact listStartsWith_ne_head _ _ _ _ (by decide)
  have c6 : listStartsWith (lowerStr (str "DOI:")) ('1' :: lowerStr t) = false := by
    have e : lowerStr (str "DOI:") = 'd' :: lowerStr (str "oi:") := by decide
    rw [e]
    exact listStartsWith_ne_head _ _ _ _ (by decide)
  simp only [doiUrlHeads, dropUrlHead, hm, c1, c2, c3, c4, c5, c6,
    Bool.false_eq_true, if_false]

theorem str10_cons (x : List Char) :
    str "10." ++ x = '1' :: '0' :: '.' :: x := rfl

/-- Core of the amended C1: `clean_doi` maps a well-behaved DOI followed by
an empty / `?`-headed / `&`-headed tail back to the bare DOI. -/
theorem clean_doi_doi_tail (ds suf tail : List Char)
    (hds : ∀ x ∈ ds, Char.isDigit x = true)
    (hsuf : suf ≠ [])
    (hok : ∀ x ∈ suf, pyIsSpace x = false ∧ x ≠ '&' ∧ x ≠ '?')
    (hlast : ∀ c, suf.getLast? = some c →
      (c = '.' || c = ',' || c = ';' || c = ':' || c = ')') = false)
    (hfrag : stripNumFragment (str "10." ++ ds ++ '/' :: suf) = str "10." ++ ds ++ '/' :: suf)
    (htail : tail = [] ∨ (∃ t', tail = '?' :: t') ∨ (∃ t', tail = '&' :: t')) :
    clean_doi ((str "10." ++ ds ++ '/' :: suf) ++ tail) =
      some (str "10." ++ ds ++ '/' :: suf) := by
  set d : List Char := str "10." ++ ds ++ '/' :: suf with hd
  have hdcons : d = '1' :: '0' :: '.' :: (ds ++ '/' :: suf) := str10_cons _
  have hd_ne : d ≠ [] := by rw [hdcons]; simp
  have hd_all_ns : ∀ x ∈ d, pyIsSpace x = false := by
    intro x hx
    rw [hdcons] at hx
    simp only [List.mem_cons, List.mem_append] at hx
    rcases hx with rfl | rfl | rfl | (hx | rfl | hx)
    · decide
    · decide
    · decide
    · exact digit_nonspace x (hds x hx)
    · decide
    · exact (hok x hx).1
  have hd_noq : ∀ x ∈ d, (!(x = '&' || x = '?')) = true := by
    intro x hx
    rw [hdcons] at hx
    simp only [List.mem_cons, List.mem_append] at hx
    rcases hx with rfl | rfl | rfl | (hx | rfl | hx)
    · decide
    · decide
    · decide
    · exact digit_not_query x (hds x hx)
    · decide
    · simp [(hok x hx).2.1, (hok x hx).2.2]
  have hd_noamp : ∀ x ∈ d, x ≠ '&' := by
    intro x hx hamp
    have := hd_noq x hx
    rw [hamp] at this
    simp at this
  obtain ⟨e, he⟩ : ∃ e, suf.getLast? = some e := by
    cases hg : suf.getLast? with
    | none => exact absurd (List.getLast?_eq_none_iff.mp hg) hsuf
    | some a => exact ⟨a, rfl⟩
  obtain ⟨ys, hys⟩ := List.getLast?_eq_some_iff.mp he
  have hdA : d = (str "10." ++ ds ++ '/' :: ys) ++ [e] := by
    rw [hd, hys]
    simp
  have he_mem : e ∈ suf := List.mem_of_getLast?_eq_some he
  have hd_head : ∀ c, d.head? = some c → pyIsSpace c = false := by
    intro c hc
    rw [hdcons] at hc
    simp only [List.head?_cons, Option.some.injEq] at hc
    subst hc
    decide
  have hd_last : ∀ c, d.getLast? = some c → pyIsSpace c = false := by
    intro c hc
    rw [hdA, List.getLast?_concat] at hc
    injection hc with hc
    subst hc
    exact (hok e he_mem).1
  -- the stripped tail keeps its head shape
  have hstrip : strip (d ++ tail) = d ++ stripRight tail :=
    strip_append_nonspace d tail hd_ne hd_head hd_last
  -- case split on the tail shape to compute the query cut
  have hcut : cutQuery (d ++ stripRight tail) = d := by
    rcases htail with rfl | ⟨t', rfl⟩ | ⟨t', rfl⟩
    · rw [stripRight_nil, List.append_nil]
      exact cutQuery_all d hd_noq
    · rw [stripRight_cons '?' t' (by decide)]
      exact cutQuery_stop d '?' (stripRight t') hd_noq (by decide)
    · rw [stripRight_cons '&' t' (by decide)]
      exact cutQuery_stop d '&' (stripRight t') hd_noq (by decide)
  have hamp : replaceAmp d = d := replaceAmp_no_amp d hd_noamp
  have hpunct : rstripPunct d = d := by
    rw [hdA]
    exact rstripPunct_last _ e (hlast e he)
  have hne_app : (d ++ tail).isEmpty = false := by
    rw [hdcons]
    simp
  have hd_nonempty : d.isEmpty = false := by
    rw [hdcons]
    simp
  have hdrop : dropUrlHead doiUrlHeads (d ++ stripRight tail) = d ++ stripRight tail := by
    rw [hdcons, List.cons_append]
    exact dropUrlHead_ten _
  unfold clean_doi
  simp only [hne_app, Bool.false_eq_true, if_false, hstrip, hdrop, hcut, hamp, hpunct]
  simp only [hfrag, hd_nonempty, Bool.false_eq_true, if_false]

theorem mem_doi_parts (ds suf : List Char) (x : Char)
    (hx : x ∈ str "10." ++ ds ++ '/' :: suf) :
    x = '1' ∨ x = '0' ∨ x = '.' ∨ x ∈ ds ∨ x = '/' ∨ x ∈ suf := by
  rw [str10_cons] at hx
  simp only [List.mem_cons, List.mem_append] at hx
  tauto

theorem is_valid_doi_parts (ds suf : List Char)
    (hds : ∀ x ∈ ds, Char.isDigit x = true) (h4 : 4 ≤ ds.length) (h9 : ds.length ≤ 9)
    (hsuf : suf ≠ []) (hns : ∀ x ∈ suf, pyIsSpace x = false) :
    is_valid_doi (str "10." ++ ds ++ '/' :: suf) = true := by
  apply is_valid_doi_iff _ |>.mpr
  refine ⟨ds, suf, ?_, hds, h4, h9, hsuf, hns⟩
  apply strip_of_nonspace
  intro x hx
  rcases mem_doi_parts ds suf x hx with rfl | rfl | rfl | hx | rfl | hx
  · decide
  · decide
  · decide
  · exact digit_nonspace x (hds x hx)
  · decide
  · exact hns x hx

theorem tail_shape_takeWhile (q : List Char)
    (hq : q = [] ∨ (∃ q', q = '?' :: q') ∨ (∃ q', q = '&' :: q')) :
    q.takeWhile (fun c => !pyIsSpace c) = [] ∨
      (∃ t', q.takeWhile (fun c => !pyIsSpace c) = '?' :: t') ∨
      (∃ t', q.takeWhile (fun c => !pyIsSpace c) = '&' :: t') := by
  rcases hq with rfl | ⟨q', rfl⟩ | ⟨q', rfl⟩
  · left; rfl
  · right; left
    exact ⟨q'.takeWhile (fun c => !pyIsSpace c), List.takeWhile_cons_of_pos (by decide)⟩
  · right; right
    exact ⟨q'.takeWhile (fun c => !pyIsSpace c), List.takeWhile_cons_of_pos (by decide)⟩

/-- Amended C1, wrapped case: the wrapper is any non-empty string free of
`'1'` and of whitespace (all six resolver URL heads qualify). -/
theorem normalize_doi_wrapped_gen (w ds suf q : List Char)
    (hwne : w ≠ []) (hw1 : ∀ c ∈ w, c ≠ '1') (hwns : ∀ c ∈ w, pyIsSpace c = false)
    (hds : ∀ x ∈ ds, Char.isDigit x = true) (h4 : 4 ≤ ds.length) (h9 : ds.length ≤ 9)
    (hsuf : suf ≠ [])
    (hok : ∀ x ∈ suf, pyIsSpace x = false ∧ x ≠ '&' ∧ x ≠ '?')
    (hlast : ∀ c, suf.getLast? = some c →
      (c = '.' || c = ',' || c = ';' || c = ':' || c = ')') = false)
    (hfrag : stripNumFragment (str "10." ++ ds ++ '/' :: suf) = str "10." ++ ds ++ '/' :: suf)
    (hq : q = [] ∨ (∃ q', q = '?' :: q') ∨ (∃ q', q = '&' :: q')) :
    normalize_doi (w ++ (str "10." ++ ds ++ '/' :: suf) ++ q) =
      some (str "10." ++ ds ++ '/' :: suf) := by
  set d : List Char := str "10." ++ ds ++ '/' :: suf with hd
  have hdcons : d = '1' :: '0' :: '.' :: (ds ++ '/' :: suf) := str10_cons _
  have hsufns : ∀ x ∈ suf, pyIsSpace x = false := fun x hx => (hok x hx).1
  obtain ⟨wc, wt, rfl⟩ := List.exists_cons_of_ne_nil hwne
  have hwc1 : wc ≠ '1' := hw1 wc (by simp)
  -- getLast? facts for d
  obtain ⟨e, he⟩ : ∃ e, suf.getLast? = some e := by
    cases hg : suf.getLast? with
    | none => exact absurd (List.getLast?_eq_none_iff.mp hg) hsuf
    | some a => exact ⟨a, rfl⟩
  obtain ⟨ys, hys⟩ := List.getLast?_eq_some_iff.mp he
  have hdA : d = (str "10." ++ ds ++ '/' :: ys) ++ [e] := by
    rw [hd, hys]
    simp
  have he_mem : e ∈ suf := List.mem_of_getLast?_eq_some he
  -- strip of the whole input
  have hstrip : strip ((wc :: wt) ++ d ++ q) = ((wc :: wt) ++ d) ++ stripRight q := by
    have h1 : (wc :: wt) ++ d ++ q = ((wc :: wt) ++ d) ++ q := by simp
    rw [h1]
    apply strip_append_nonspace ((wc :: wt) ++ d) q (by simp)
    · intro c hc
      rw [List.cons_append, List.head?_cons] at hc
      injection hc with hc
      subst hc
      exact hwns wc (by simp)
    · intro c hc
      rw [List.getLast?_append] at hc
      rw [hdA, List.getLast?_concat] at hc
      simp only [Option.or_some, Option.some.injEq] at hc
      subst hc
      exact (hok e he_mem).1
  -- the "already starts with 10." test fails
  have hguard : listStartsWith (str "10.") (strip ((wc :: wt) ++ d ++ q)) = false := by
    rw [hstrip]
    have : ((wc :: wt) ++ d) ++ stripRight q = wc :: (wt ++ d ++ stripRight q) := by simp
    rw [this]
    have h10 : str "10." = '1' :: '0' :: '.' :: [] := rfl
    rw [h10]
    exact listStartsWith_ne_head _ _ _ _ (fun hh => hwc1 hh.symm) |>.symm ▸ rfl
  -- the regex search skips the wrapper and matches at the DOI
  have hdq : d ++ q = '1' :: '0' :: '.' :: (ds ++ '/' :: (suf ++ q)) := by
    rw [hd, ← str10_cons]
    simp
  have hsearch : searchDoi ((wc :: wt) ++ d ++ q) = some ('1' :: '0' :: '.' ::
      (ds ++ '/' :: (suf ++ q.takeWhile (fun c => !pyIsSpace c)))) := by
    have h1 : (wc :: wt) ++ d ++ q = (wc :: wt) ++ (d ++ q) := by simp
    rw [h1, searchDoi_skip _ _ hw1, hdq, searchDoi.eq_def]
    simp only [findDoiAt_match ds suf q hds h4 h9 hsuf hsufns]
  -- the matched string is the DOI plus a well-shaped tail, so cleaning works
  have hm : ('1' :: '0' :: '.' ::
      (ds ++ '/' :: (suf ++ q.takeWhile (fun c => !pyIsSpace c))))
      = d ++ q.takeWhile (fun c => !pyIsSpace c) := by
    rw [hd, ← str10_cons]
    simp
  have hclean : clean_doi (d ++ q.takeWhile (fun c => !pyIsSpace c)) = some d := by
    rw [hd]
    exact clean_doi_doi_tail ds suf _ hds hsuf hok hlast hfrag (tail_shape_takeWhile q hq)
  have hvalid : is_valid_doi d = true := by
    rw [hd]
    exact is_valid_doi_parts ds suf hds h4 h9 hsuf hsufns
  have hextract : extract_doi ((wc :: wt) ++ d ++ q) = some d := by
    unfold extract_doi
    rw [if_neg (by simp)]
    rw [hsearch, hm]
    show clean_doi (d ++ q.takeWhile (fun c => !pyIsSpace c)) = some d
    exact hclean
  have hcleand : clean_doi d = some d := by
    have h0 := clean_doi_doi_tail ds suf [] hds hsuf hok hlast hfrag (Or.inl rfl)
    rwa [List.append_nil, ← hd] at h0
  unfold normalize_doi
  simp only [hguard, Bool.false_eq_true, if_false, hextract, hcleand, hvalid, if_true]

/-- Amended C1, unwrapped case: the input is the DOI itself followed by an
optional query-string tail. -/
theorem normalize_doi_bare (ds suf q : List Char)
    (hds : ∀ x ∈ ds, Char.isDigit x = true) (h4 : 4 ≤ ds.length) (h9 : ds.length ≤ 9)
    (hsuf : suf ≠ [])
    (hok : ∀ x ∈ suf, pyIsSpace x = false ∧ x ≠ '&' ∧ x ≠ '?')
    (hlast : ∀ c, suf.getLast? = some c →
      (c = '.' || c = ',' || c = ';' || c = ':' || c = ')') = false)
    (hfrag : stripNumFragment (str "10." ++ ds ++ '/' :: suf) = str "10." ++ ds ++ '/' :: suf)
    (hq : q = [] ∨ (∃ q', q = '?' :: q') ∨ (∃ q', q = '&' :: q')) :
    normalize_doi ((str "10." ++ ds ++ '/' :: suf) ++ q) =
      some (str "10." ++ ds ++ '/' :: suf) := by
  set d : List Char := str "10." ++ ds ++ '/' :: suf with hd
  have hdcons : d = '1' :: '0' :: '.' :: (ds ++ '/' :: suf) := str10_cons _
  have hsufns : ∀ x ∈ suf, pyIsSpace x = false := fun x hx => (hok x hx).1
  have hd_ne : d ≠ [] := by rw [hdcons]; simp
  obtain ⟨e, he⟩ : ∃ e, suf.getLast? = some e := by
    cases hg : suf.getLast? with
    | none => exact absurd (List.getLast?_eq_none_iff.mp hg) hsuf
    | some a => exact ⟨a, rfl⟩
  obtain ⟨ys, hys⟩ := List.getLast?_eq_some_iff.mp he
  have hdA : d = (str "10." ++ ds ++ '/' :: ys) ++ [e] := by
    rw [hd, hys]
    simp
  have he_mem : e ∈ suf := List.mem_of_getLast?_eq_some he
  have hstrip : strip (d ++ q) = d ++ stripRight q := by
    apply strip_append_nonspace d q hd_ne
    · intro c hc
      rw [hdcons, List.head?_cons] at hc
      injection hc with hc
      subst hc
      decide
    · intro c hc
      rw [hdA, List.getLast?_concat] at hc
      injection hc with hc
      subst hc
      exact (hok e he_mem).1
  have hguard : listStartsWith (str "10.") (strip (d ++ q)) = true := by
    rw [hstrip, hd]
    have h1 : (str "10." ++ ds ++ '/' :: suf) ++ stripRight q
        = str "10." ++ ((ds ++ '/' :: suf) ++ stripRight q) := by simp
    rw [h1]
    exact listStartsWith_append _ _
  have hclean : clean_doi (d ++ q) = some d := by
    rw [hd]
    exact clean_doi_doi_tail ds suf q hds hsuf hok hlast hfrag hq
  have hvalid : is_valid_doi d = true := by
    rw [hd]
    exact is_valid_doi_parts ds suf hds h4 h9 hsuf hsufns
  unfold normalize_doi
  simp only [hguard, if_true, hclean, hvalid]

/-- C1 amended: `normalize_doi` recovers the bare DOI from an input that is
the DOI, optionally preceded by one of the recognised resolver-URL wrappers
and optionally followed by a query string (`?`- or `&`-introduced),
PROVIDED the DOI's suffix contains no `&`/`?`, does not end in one of the
trimmed punctuation characters `.,;:)`, and its final path segment is not an
all-digit run of 6–8 characters (otherwise the cleaning heuristics alter the
DOI, as the counterexample shows). -/
theorem C1_normalize_amended (w ds suf q : List Char)
    (hw : w = [] ∨ w ∈ doiUrlHeads)
    (hds : ∀ x ∈ ds, Char.isDigit x = true) (h4 : 4 ≤ ds.length) (h9 : ds.length ≤ 9)
    (hsuf : suf ≠ [])
    (hok : ∀ x ∈ suf, pyIsSpace x = false ∧ x ≠ '&' ∧ x ≠ '?')
    (hlast : ∀ c, suf.getLast? = some c →
      (c = '.' || c = ',' || c = ';' || c = ':' || c = ')') = false)
    (hfrag : stripNumFragment (str "10." ++ ds ++ '/' :: suf) = str "10." ++ ds ++ '/' :: suf)
    (hq : q = [] ∨ (∃ q', q = '?' :: q') ∨ (∃ q', q = '&' :: q')) :
    normalize_doi (w ++ (str "10." ++ ds ++ '/' :: suf) ++ q) =
      some (str "10." ++ ds ++ '/' :: suf) := by
  rcases hw with rfl | hw
  · rw [List.nil_append]
    exact normalize_doi_bare ds suf q hds h4 h9 hsuf hok hlast hfrag hq
  · have hball : ∀ u ∈ doiUrlHeads,
        u ≠ [] ∧ (∀ c ∈ u, c ≠ '1') ∧ (∀ c ∈ u, pyIsSpace c = false) := by decide
    obtain ⟨hwne, hw1, hwns⟩ := hball w hw
    have h1 : w ++ (str "10." ++ ds ++ '/' :: suf) ++ q
        = w ++ ((str "10." ++ ds ++ '/' :: suf) ++ q) := by simp
    exact normalize_doi_wrapped_gen w ds suf q hwne hw1 hwns hds h4 h9 hsuf hok hlast hfrag hq

/-- Witness for the amended C1 at a concrete wrapped input with a query
string. -/
theorem C1_normalize_amended_witness :
    normalize_doi (str "https://doi.org/" ++ (str "10." ++ str "1234" ++ '/' :: str "example")
        ++ ('?' :: str "download=true"))
      = some (str "10." ++ str "1234" ++ '/' :: str "example") := by
  apply C1_normalize_amended
  · right
    simp [doiUrlHeads]
  · decide
  · decide
  · decide
  · decide
  · decide
  · intro c hc
    have he : (str "example").getLast? = some 'e' := by decide
    rw [he] at hc
    injection hc with hc
    subst hc
    decide
  · decide
  · right
    left
    exact ⟨str "download=true", rfl⟩

end DoiUtils


namespace DoiUtils

/-- `normalize_doi` only returns values that validate. -/
theorem normalize_doi_valid (doi c : List Char) (h : normalize_doi doi = some c) :
    is_valid_doi c = true := by
  simp only [normalize_doi] at h
  split at h
  · exact absurd h (by simp)
  · next c' heq =>
    split at h
    · next hv =>
      injection h with h
      subst h
      exact hv
    · exact absurd h (by simp)

end DoiUtils

namespace PdfFetcher

open DoiUtils

/-- C3: `_download_pdf` succeeds writing the full body when the declared
content type contains "pdf", or, failing that, when the first 5 stream
bytes equal `%PDF-` (in which case the probe bytes are written followed by
the remainder, i.e. the whole body); otherwise it writes nothing and
returns false; transport exceptions become a false result. -/
theorem C3_download_verifier :
    (download_pdf .transportError = ⟨false, none⟩) ∧
    (∀ ct body, containsSub (str "pdf") (lowerStr ct) = true →
        download_pdf (.response ct body) = ⟨true, some body⟩) ∧
    (∀ ct body, containsSub (str "pdf") (lowerStr ct) = false →
        body.take 5 = pdfMagic →
        download_pdf (.response ct body) = ⟨true, some body⟩) ∧
    (∀ ct body, containsSub (str "pdf") (lowerStr ct) = false →
        ¬ body.take 5 = pdfMagic →
        download_pdf (.response ct body) = ⟨false, none⟩) := by
  refine ⟨rfl, ?_, ?_, ?_⟩
  · intro ct body h
    simp [download_pdf, h]
  · intro ct body h hm
    simp [download_pdf, h, hm]
    rw [← hm]
    exact List.take_append_drop 5 body
  · intro ct body h hm
    simp [download_pdf, h, hm]

/-- Witness for C3: a content-type-mislabeled but magic-byte-valid body is
saved in full. -/
theorem C3_download_verifier_witness :
    download_pdf (.response (str "text/html") [37, 80, 68, 70, 45, 10])
      = ⟨true, some [37, 80, 68, 70, 45, 10]⟩ :=
  C3_download_verifier.2.2.1 (str "text/html") [37, 80, 68, 70, 45, 10]
    (by decide) (by decide)

/-- The mirror loop contacts exactly the mirrors up to and including the
first successful one, in order, and succeeds iff some mirror succeeds. -/
theorem fetch_from_scihub_trace_eq (dl : List Char → HttpOutcome)
    (ms : List MirrorResp) :
    fetch_from_scihub_trace dl ms =
      (List.range (min (ms.findIdx (mirrorStep dl) + 1) ms.length),
       ms.any (mirrorStep dl)) := by
  induction ms with
  | nil => rfl
  | cons m ms ih =>
    rw [fetch_from_scihub_trace]
    by_cases h : mirrorStep dl m = true
    · rw [if_pos h]
      have h0 : (m :: ms).findIdx (mirrorStep dl) = 0 := by
        rw [List.findIdx_cons, h]
        rfl
      rw [h0, List.length_cons]
      have hmin : min (0 + 1) (ms.length + 1) = 1 := by omega
      rw [hmin]
      simp [List.any_cons, h, List.range_succ_eq_map]
    · rw [if_neg h]
      rw [ih]
      have hb : mirrorStep dl m = false := by
        cases hx : mirrorStep dl m
        · rfl
        · exact absurd hx h
      have hfi : (m :: ms).findIdx (mirrorStep dl) = ms.findIdx (mirrorStep dl) + 1 := by
        rw [List.findIdx_cons, hb]
        rfl
      rw [hfi, List.length_cons]
      have hmin : min (ms.findIdx (mirrorStep dl) + 1 + 1) (ms.length + 1)
          = (min (ms.findIdx (mirrorStep dl) + 1) ms.length) + 1 := by omega
      rw [hmin, List.range_succ_eq_map]
      simp [List.any_cons, hb, Nat.succ_eq_add_one]

/-- C4: the waterfall order.  (1) Mirrors are attempted strictly in
configured order and the loop stops at the first success: the contacted
indices are exactly `0, …, k` where `k` is the first successful mirror (all
of them when none succeeds).  (2) A resolver-stage success short-circuits
the mirror stage entirely: no mirror is contacted and the source is
"unpaywall". -/
theorem C4_waterfall_order :
    (∀ (dl : List Char → HttpOutcome) (ms : List MirrorResp),
      fetch_from_scihub_trace dl ms =
        (List.range (min (ms.findIdx (mirrorStep dl) + 1) ms.length),
         ms.any (mirrorStep dl))) ∧
    (∀ (env : FetchEnv) (doi title c : List Char),
      DoiUtils.normalize_doi doi = some c →
      env.configExists = true →
      env.config.unpaywallEmail.isEmpty = false →
      (fetch_from_unpaywall_trace env.dl env.unpaywall).2 = true →
      ∃ path tr, fetch_pdf env doi title = .ok (some (path, str "unpaywall"), tr) ∧
        tr.mirrorsContacted = []) := by
  constructor
  · exact fetch_from_scihub_trace_eq
  · intro env doi title c hnorm hcfg hemail hup
    have hvalid := DoiUtils.normalize_doi_valid doi c hnorm
    simp only [fetch_pdf, hnorm, hvalid, hcfg, hemail, not_true, Bool.false_eq_true,
      not_false_iff, if_true, if_false, true_and, hup, and_true, and_self]
    exact ⟨_, _, rfl, rfl⟩

end PdfFetcher

namespace PdfFetcher

open DoiUtils

/-- Witness for C4: with only the third of four mirrors able to serve a
PDF, mirrors 0,1,2 are contacted in order and no fourth; and in `envC4`
the resolver success leaves the mirror stage untouched. -/
theorem C4_waterfall_order_witness :
    fetch_from_scihub_trace (fun _ => .transportError)
        [MirrorResp.netError, .htmlPage none, .pdfPayload [37], .pdfPayload [1]]
      = ([0, 1, 2], true) ∧
    (∃ path tr,
      fetch_pdf envC4 (str "10.1234/abcd") (str "t") = .ok (some (path, str "unpaywall"), tr) ∧
        tr.mirrorsContacted = []) := by
  constructor
  · rw [C4_waterfall_order.1]
    decide
  · exact C4_waterfall_order.2 envC4 (str "10.1234/abcd") (str "t") (str "10.1234/abcd")
      (by decide) rfl (by decide) (by decide)

/-- Every branch of a nested conditional returning `Except.ok` pairs
yields an `ok` result. -/
theorem exists_ok_ite {E A B : Type} (P : Prop) [Decidable P] (x y : Except E (A × B))
    (hx : ∃ r t, x = .ok (r, t)) (hy : ∃ r t, y = .ok (r, t)) :
    ∃ r t, (if P then x else y) = .ok (r, t) := by
  by_cases h : P
  · rw [if_pos h]
    exact hx
  · rw [if_neg h]
    exact hy

/-- C6: error discipline of the waterfall.  An identifier that fails
normalization yields `(None, None)` with no session built and no network
access, even if the config file is missing; for a normalizable identifier
the call raises exactly when the config file is missing, and otherwise
returns an ordinary outcome whatever the network does. -/
theorem C6_fetch_error_discipline :
    (∀ (env : FetchEnv) (doi title : List Char),
      DoiUtils.normalize_doi doi = none →
      fetch_pdf env doi title = .ok (none, emptyTrace)) ∧
    (∀ (env : FetchEnv) (doi title c : List Char),
      DoiUtils.normalize_doi doi = some c →
      env.configExists = false →
      fetch_pdf env doi title = .error (str "Config file not found")) ∧
    (∀ (env : FetchEnv) (doi title c : List Char),
      DoiUtils.normalize_doi doi = some c →
      env.configExists = true →
      ∃ r tr, fetch_pdf env doi title = .ok (r, tr)) := by
  refine ⟨?_, ?_, ?_⟩
  · intro env doi title h
    simp [fetch_pdf, h]
  · intro env doi title c hnorm hcfg
    have hvalid := DoiUtils.normalize_doi_valid doi c hnorm
    simp [fetch_pdf, hnorm, hvalid, hcfg]
  · intro env doi title c hnorm hcfg
    have hvalid := DoiUtils.normalize_doi_valid doi c hnorm
    simp only [fetch_pdf, hnorm, hvalid, hcfg, not_true, Bool.false_eq_true,
      not_false_iff, if_true, if_false]
    apply exists_ok_ite
    · exact ⟨_, _, rfl⟩
    · apply exists_ok_ite
      · exact ⟨_, _, rfl⟩
      · exact ⟨_, _, rfl⟩

/-- Witness for C6 at concrete inputs: an unnormalizable identifier returns
the empty outcome with an empty trace even though `envC6bad` has no config
file; a valid identifier with the config present returns an ordinary
result; a valid identifier with the config missing errors. -/
theorem C6_fetch_error_discipline_witness :
    fetch_pdf envC6bad (str "not-a-doi") (str "t") = .ok (none, emptyTrace) ∧
    fetch_pdf envC6bad (str "10.1234/abcd") (str "t")
      = .error (str "Config file not found") ∧
    (∃ r tr, fetch_pdf envC4 (str "10.1234/abcd") (str "t") = .ok (r, tr)) :=
  ⟨C6_fetch_error_discipline.1 envC6bad (str "not-a-doi") (str "t") (by decide),
   C6_fetch_error_discipline.2.1 envC6bad (str "10.1234/abcd") (str "t")
     (str "10.1234/abcd") (by decide) rfl,
   C6_fetch_error_discipline.2.2 envC4 (str "10.1234/abcd") (str "t")
     (str "10.1234/abcd") (by decide) rfl⟩

end PdfFetcher

namespace PdfFetcher

open DoiUtils

theorem dedupFirst_mem (l : List (List Char)) :
    ∀ (seen : List (List Char)) (x : List Char),
      x ∈ dedupFirst seen l ↔ (x ∈ l ∧ x ∉ seen) := by
  induction l with
  | nil => intro seen x; simp [dedupFirst]
  | cons a as ih =>
    intro seen x
    by_cases ha : a ∈ seen
    · rw [dedupFirst, if_pos ha, ih]
      constructor
      · rintro ⟨hx, hs⟩
        exact ⟨by simp [hx], hs⟩
      · rintro ⟨hx, hs⟩
        rcases List.mem_cons.mp hx with rfl | hx
        · exact absurd ha hs
        · exact ⟨hx, hs⟩
    · rw [dedupFirst, if_neg ha]
      constructor
      · intro hx
        rcases List.mem_cons.mp hx with rfl | hx
        · exact ⟨by simp, ha⟩
        · obtain ⟨h1, h2⟩ := (ih (a :: seen) x).mp hx
          refine ⟨by simp [h1], fun hs => h2 (by simp [hs])⟩
      · rintro ⟨hx, hs⟩
        rcases List.mem_cons.mp hx with rfl | hx
        · simp
        · by_cases hxa : x = a
          · subst hxa
            simp
          · refine List.mem_cons.mpr (Or.inr ((ih (a :: seen) x).mpr ⟨hx, ?_⟩))
            intro hmem
            rcases List.mem_cons.mp hmem with h | h
            · exact hxa h
            · exact hs h

theorem dedupFirst_sublist (l : List (List Char)) :
    ∀ seen : List (List Char), List.Sublist (dedupFirst seen l) l := by
  induction l with
  | nil => intro seen; simp [dedupFirst]
  | cons a as ih =>
    intro seen
    rw [dedupFirst]
    by_cases ha : a ∈ seen
    · rw [if_pos ha]
      exact List.Sublist.cons a (ih seen)
    · rw [if_neg ha]
      exact List.Sublist.cons₂ a (ih (a :: seen))

theorem dedupFirst_nodup (l : List (List Char)) :
    ∀ seen : List (List Char), (dedupFirst seen l).Nodup := by
  induction l with
  | nil => intro seen; simp [dedupFirst]
  | cons a as ih =>
    intro seen
    rw [dedupFirst]
    by_cases ha : a ∈ seen
    · rw [if_pos ha]
      exact ih seen
    · rw [if_neg ha]
      rw [List.nodup_cons]
      refine ⟨fun hmem => ?_, ih (a :: seen)⟩
      exact ((dedupFirst_mem as (a :: seen) a).mp hmem).2 (by simp)

theorem firstIdx_cons_self (x : List Char) (l : List (List Char)) :
    firstIdx x (x :: l) = 0 := by
  simp [firstIdx]

theorem firstIdx_cons_ne (x b : List Char) (l : List (List Char)) (h : b ≠ x) :
    firstIdx x (b :: l) = firstIdx x l + 1 := by
  simp [firstIdx, h]

theorem dedupFirst_pairwise (l : List (List Char)) :
    ∀ seen : List (List Char),
      (dedupFirst seen l).Pairwise (fun a b => firstIdx a l < firstIdx b l) := by
  induction l with
  | nil => intro seen; simp [dedupFirst]
  | cons a as ih =>
    intro seen
    rw [dedupFirst]
    by_cases ha : a ∈ seen
    · rw [if_pos ha]
      apply List.Pairwise.imp_of_mem ?_ (ih seen)
      intro x y hx hy hlt
      have hxa : x ≠ a := fun hh => ((dedupFirst_mem as seen x).mp hx).2 (hh ▸ ha)
      have hya : y ≠ a := fun hh => ((dedupFirst_mem as seen y).mp hy).2 (hh ▸ ha)
      rw [firstIdx_cons_ne x a as (Ne.symm hxa), firstIdx_cons_ne y a as (Ne.symm hya)]
      omega
    · rw [if_neg ha]
      rw [List.pairwise_cons]
      constructor
      · intro b hb
        have hba : b ≠ a := fun hh =>
          ((dedupFirst_mem as (a :: seen) b).mp hb).2 (by simp [hh])
        rw [firstIdx_cons_self, firstIdx_cons_ne b a as (Ne.symm hba)]
        omega
      · apply List.Pairwise.imp_of_mem ?_ (ih (a :: seen))
        intro x y hx hy hlt
        have hxa : x ≠ a := fun hh =>
          ((dedupFirst_mem as (a :: seen) x).mp hx).2 (by simp [hh])
        have hya : y ≠ a := fun hh =>
          ((dedupFirst_mem as (a :: seen) y).mp hy).2 (by simp [hh])
        rw [firstIdx_cons_ne x a as (Ne.symm hxa), firstIdx_cons_ne y a as (Ne.symm hya)]
        omega

/-- The candidate-URL loop attempts exactly the prefix of the list up to
and including the first successful URL, in order. -/
theorem try_urls_eq (dl : List Char → HttpOutcome) (us : List (List Char)) :
    try_urls dl us =
      (us.take (min (us.findIdx (fun u => (download_pdf (dl u)).ok) + 1) us.length),
       us.any (fun u => (download_pdf (dl u)).ok)) := by
  induction us with
  | nil => rfl
  | cons u us ih =>
    rw [try_urls]
    by_cases h : (download_pdf (dl u)).ok = true
    · rw [if_pos h]
      have h0 : (u :: us).findIdx (fun v => (download_pdf (dl v)).ok) = 0 := by
        rw [List.findIdx_cons, h]
        rfl
      rw [h0, List.length_cons]
      have hmin : min (0 + 1) (us.length + 1) = 1 := by omega
      rw [hmin]
      simp [List.any_cons, h]
    · rw [if_neg h]
      rw [ih]
      have hb : (download_pdf (dl u)).ok = false := by
        cases hx : (download_pdf (dl u)).ok
        · rfl
        · exact absurd hx h
      have hfi : (u :: us).findIdx (fun v => (download_pdf (dl v)).ok)
          = us.findIdx (fun v => (download_pdf (dl v)).ok) + 1 := by
        rw [List.findIdx_cons, hb]
        rfl
      rw [hfi, List.length_cons]
      have hmin : min (us.findIdx (fun v => (download_pdf (dl v)).ok) + 1 + 1) (us.length + 1)
          = (min (us.findIdx (fun v => (download_pdf (dl v)).ok) + 1) us.length) + 1 := by
        omega
      rw [hmin, List.take_succ_cons]
      simp [List.any_cons, hb]

/-- C5: the resolver-stage candidate list.  The raw candidates are the
`best_oa_location` URLs (`url_for_pdf` before `url`) followed by the URLs
of each `oa_locations` entry in listing order (that is
`unpaywallCandidates`); the attempted list is its deduplication, which
keeps exactly the first occurrence of each URL (no duplicates, same
members, first-seen order preserved), and the loop attempts that list in
order stopping at the first successful download. -/
theorem C5_resolver_candidates (p : UnpaywallPayload) :
    unpaywallCandidates p = bestCandidates p ++ locationCandidates p ∧
    (dedupFirst [] (unpaywallCandidates p)).Nodup ∧
    (∀ x, x ∈ dedupFirst [] (unpaywallCandidates p) ↔ x ∈ unpaywallCandidates p) ∧
    List.Sublist (dedupFirst [] (unpaywallCandidates p)) (unpaywallCandidates p) ∧
    (dedupFirst [] (unpaywallCandidates p)).Pairwise
      (fun a b => firstIdx a (unpaywallCandidates p) < firstIdx b (unpaywallCandidates p)) ∧
    (∀ dl, fetch_from_unpaywall_trace dl (some p) =
      ((dedupFirst [] (unpaywallCandidates p)).take
        (min ((dedupFirst [] (unpaywallCandidates p)).findIdx
            (fun u => (download_pdf (dl u)).ok) + 1)
          (dedupFirst [] (unpaywallCandidates p)).length),
       (dedupFirst [] (unpaywallCandidates p)).any
         (fun u => (download_pdf (dl u)).ok))) := by
  refine ⟨rfl, dedupFirst_nodup _ _, ?_, dedupFirst_sublist _ _, dedupFirst_pairwise _ _, ?_⟩
  · intro x
    rw [dedupFirst_mem]
    simp
  · intro dl
    exact try_urls_eq dl _

end PdfFetcher


namespace ScholarSearch

/-- The pagination loop appends, to the accumulator, exactly the parsed
entries of the consecutive non-empty pages at offsets `10*k, 10*(k+1), …`,
in offset order and within-page order. -/
theorem search_loop_res (backend : Nat → PageResp) (maxResults : Nat) :
    ∀ (N : Nat) (acc : List Entry) (k attempts : Nat),
      (maxResults - acc.length) * 5 + (4 - attempts) ≤ N →
      ∃ n, k ≤ n ∧
        (∀ i, k ≤ i → i < n →
          ∃ blocks, backend (10 * i) = .page blocks ∧ parse_results blocks ≠ []) ∧
        (search_loop backend maxResults acc (10 * k) attempts).1
          = acc ++ ((List.range' k (n - k)).map (fun i => pageEntries (backend (10 * i)))).flatten := by
  intro N
  induction N with
  | zero =>
    intro acc k attempts hle
    have hguard : ¬(acc.length < maxResults ∧ attempts < 4) := by omega
    refine ⟨k, le_rfl, fun i h1 h2 => absurd h1 (by omega), ?_⟩
    rw [search_loop, dif_neg hguard]
    simp
  | succ N ih =>
    intro acc k attempts hle
    by_cases hguard : acc.length < maxResults ∧ attempts < 4
    · cases hbk : backend (10 * k) with
      | netError =>
        obtain ⟨n, hn, hprops, hres⟩ := ih acc k (attempts + 1) (by omega)
        refine ⟨n, hn, hprops, ?_⟩
        rw [search_loop, dif_pos hguard, hbk]
        exact hres
      | rateLimited =>
        obtain ⟨n, hn, hprops, hres⟩ := ih acc k (attempts + 1) (by omega)
        refine ⟨n, hn, hprops, ?_⟩
        rw [search_loop, dif_pos hguard, hbk]
        exact hres
      | page blocks =>
        by_cases hemp : (parse_results blocks).isEmpty = true
        · refine ⟨k, le_rfl, fun i h1 h2 => absurd h1 (by omega), ?_⟩
          rw [search_loop, dif_pos hguard, hbk]
          simp only [dif_pos hemp]
          simp
        · have hne : parse_results blocks ≠ [] := by
            intro hnil
            rw [hnil] at hemp
            simp at hemp
          have hlen : 0 < (parse_results blocks).length := List.length_pos.mpr hne
          have hlapp : (acc ++ parse_results blocks).length
              = acc.length + (parse_results blocks).length := List.length_append _ _
          obtain ⟨n, hn, hprops, hres⟩ :=
            ih (acc ++ parse_results blocks) (k + 1) 0 (by omega)
          refine ⟨n, by omega, ?_, ?_⟩
          · intro i h1 h2
            rcases Nat.eq_or_lt_of_le h1 with heq | hlt
            · exact ⟨blocks, heq ▸ hbk, hne⟩
            · exact hprops i hlt h2
          · rw [search_loop, dif_pos hguard, hbk]
            simp only [dif_neg hemp]
            have h10 : 10 * k + 10 = 10 * (k + 1) := by ring
            rw [h10]
            show (search_loop backend maxResults (acc ++ parse_results blocks)
              (10 * (k + 1)) 0).1 = _
            rw [hres]
            have hnk : n - k = (n - (k + 1)) + 1 := by omega
            rw [hnk, List.range'_succ, List.map_cons, List.flatten_cons, hbk]
            show acc ++ parse_results blocks ++ _ = acc ++ (parse_results blocks ++ _)
            rw [List.append_assoc]
    · refine ⟨k, le_rfl, fun i h1 h2 => absurd h1 (by omega), ?_⟩
      rw [search_loop, dif_neg hguard]
      simp

end ScholarSearch

namespace ScholarSearch

open DoiUtils

/-- C7: for any backend behaviour and any requested maximum ≥ 1, the
paginator returns at most `max_results` records, and the returned list is
the concatenation of the parsed entries of the successfully fetched pages
in increasing offset order (offsets 0, 10, 20, …), in within-page order,
truncated to `max_results`. -/
theorem C7_paginator_truncation :
    ∀ (backend : List Char → Nat → PageResp) (q : List Char) (maxResults : Int),
      1 ≤ maxResults →
      (search_scholar backend q maxResults).results.length ≤ maxResults.toNat ∧
      ∃ n, (∀ i, i < n →
          ∃ blocks, backend q (10 * i) = .page blocks ∧ parse_results blocks ≠ []) ∧
        (search_scholar backend q maxResults).results =
          (((List.range n).map (fun i => pageEntries (backend q (10 * i)))).flatten).take
            maxResults.toNat := by
  intro backend q maxResults hge
  have hpos : ¬ maxResults ≤ 0 := by omega
  unfold search_scholar
  rw [if_neg hpos]
  constructor
  · simp [List.length_take]
  · obtain ⟨n, hk, hprops, hres⟩ := search_loop_res (backend q) maxResults.toNat
      ((maxResults.toNat - 0) * 5 + 4) [] 0 0 (by omega)
    refine ⟨n, fun i hi => hprops i (Nat.zero_le i) hi, ?_⟩
    have h0 : (10 : Nat) * 0 = 0 := by ring
    rw [h0] at hres
    show ((search_loop (backend q) maxResults.toNat [] 0 0).1).take maxResults.toNat = _
    rw [hres]
    simp [List.range_eq_range', Nat.sub_zero]

/-- Witness for C7 at a concrete backend and `max_results = 5`. -/
theorem C7_paginator_truncation_witness :
    (search_scholar (fun _ _ => .page []) (str "graph neural networks") 5).results.length
        ≤ (5 : Int).toNat ∧
    ∃ n, (∀ i, i < n →
        ∃ blocks, (fun (_ : List Char) (_ : Nat) => PageResp.page ([] : List RawResult))
            (str "graph neural networks") (10 * i) = .page blocks ∧
          parse_results blocks ≠ []) ∧
      (search_scholar (fun _ _ => .page []) (str "graph neural networks") 5).results =
        (((List.range n).map (fun i => pageEntries
          ((fun (_ : List Char) (_ : Nat) => PageResp.page ([] : List RawResult))
            (str "graph neural networks") (10 * i)))).flatten).take (5 : Int).toNat :=
  C7_paginator_truncation (fun _ _ => .page []) (str "graph neural networks") 5 (by decide)

/-- C10: a non-positive `max_results` returns the empty list immediately:
no session is built and no offset is fetched. -/
theorem C10_nonpositive_shortcircuit :
    ∀ (backend : List Char → Nat → PageResp) (q : List Char) (maxResults : Int),
      maxResults ≤ 0 →
      search_scholar backend q maxResults = ⟨[], [], false⟩ := by
  intro backend q maxResults h
  unfold search_scholar
  rw [if_pos h]

/-- Witness for C10 at `max_results = 0` and `-3`. -/
theorem C10_nonpositive_shortcircuit_witness :
    search_scholar (fun _ _ => .page []) (str "q") 0 = ⟨[], [], false⟩ ∧
    search_scholar (fun _ _ => .netError) (str "q") (-3) = ⟨[], [], false⟩ :=
  ⟨C10_nonpositive_shortcircuit _ _ 0 (by decide),
   C10_nonpositive_shortcircuit _ _ (-3) (by decide)⟩

end ScholarSearch

namespace ScholarSearch

open DoiUtils

theorem rstripPunctS_split (x suf : List Char) :
    rstripPunctS (x ++ '/' :: suf) = x ++ '/' :: (suf.reverse.dropWhile punctS).reverse := by
  unfold rstripPunctS
  have h1 : (x ++ '/' :: suf).reverse = suf.reverse ++ '/' :: x.reverse := by simp
  rw [h1, dropWhile_stop_append _ _ _ _ (by decide : punctS '/' = false)]
  simp

theorem findDoiAtS_shape (l m : List Char) (h : findDoiAtS l = some m) :
    ∃ ds suf, m = str "10." ++ ds ++ '/' :: suf ∧
      (∀ x ∈ ds, Char.isDigit x = true) ∧ 4 ≤ ds.length ∧
      suf ≠ [] ∧ (∀ x ∈ suf, pyIsSpace x = false) := by
  unfold findDoiAtS at h
  split at h
  next rest =>
    split at h
    next t heq =>
      dsimp only [] at h
      split at h
      next hlen =>
        split at h
        next hemp => exact absurd h (by simp)
        next hemp =>
          injection h with h
          refine ⟨rest.takeWhile Char.isDigit, t.takeWhile (fun c => !pyIsSpace c),
            ?_, ?_, hlen, ?_, ?_⟩
          · rw [← h, str10_cons]
            rfl
          · intro x hx
            have hall := List.all_takeWhile (p := Char.isDigit) (l := rest)
            rw [List.all_eq_true] at hall
            exact hall x hx
          · simpa [List.isEmpty_eq_true] using hemp
          · intro x hx
            have hall := List.all_takeWhile (p := fun c => !pyIsSpace c) (l := t)
            rw [List.all_eq_true] at hall
            simpa using hall x hx
      next hlen => exact absurd h (by simp)
    next => exact absurd h (by simp)
  next => exact absurd h (by simp)

theorem searchDoiS_shape (l m : List Char) (h : searchDoiS l = some m) :
    ∃ ds suf, m = str "10." ++ ds ++ '/' :: suf ∧
      (∀ x ∈ ds, Char.isDigit x = true) ∧ 4 ≤ ds.length ∧
      suf ≠ [] ∧ (∀ x ∈ suf, pyIsSpace x = false) := by
  induction l with
  | nil => exact absurd h (by simp [searchDoiS])
  | cons c cs ih =>
    rw [searchDoiS] at h
    cases hf : findDoiAtS (c :: cs) with
    | some m' =>
      rw [hf] at h
      injection h with h
      exact h ▸ findDoiAtS_shape (c :: cs) m' hf
    | none =>
      rw [hf] at h
      exact ih h

theorem extract_doi_scholar_shape (vs : List (List Char)) (dval : List Char)
    (h : extract_doi_scholar vs = some dval) :
    ∃ ds suf, dval = str "10." ++ ds ++ '/' :: suf ∧
      (∀ x ∈ ds, Char.isDigit x = true) ∧ 4 ≤ ds.length ∧
      (∀ x ∈ suf, pyIsSpace x = false) ∧
      (∀ c, suf.getLast? = some c → punctS c = false) := by
  induction vs with
  | nil => exact absurd h (by simp [extract_doi_scholar])
  | cons v vs ih =>
    rw [extract_doi_scholar] at h
    split at h
    · exact ih h
    · cases hf : searchDoiS v with
      | some m =>
        rw [hf] at h
        injection h with h
        obtain ⟨ds, suf, hm, hds, hlen, _, hns⟩ := searchDoiS_shape v m hf
        refine ⟨ds, (suf.reverse.dropWhile punctS).reverse, ?_, hds, hlen, ?_, ?_⟩
        · rw [← h, hm]
          have : str "10." ++ ds ++ '/' :: suf = (str "10." ++ ds) ++ '/' :: suf := by simp
          rw [this, rstripPunctS_split]
        · intro x hx
          apply hns
          have hx2 : x ∈ suf.reverse.dropWhile punctS := by simpa using hx
          have := (List.dropWhile_sublist punctS).subset hx2
          simpa using this
        · intro c hc
          rw [List.getLast?_reverse] at hc
          have hd := List.head?_dropWhile_not punctS suf.reverse
          rw [hc] at hd
          exact hd
      | none =>
        rw [hf] at h
        exact ih h

/-- Every record emitted by the paginator comes from one raw block via
`mkEntry` (the per-entry parse of `_parse_results`). -/
theorem mem_search_results (backend : List Char → Nat → PageResp) (q : List Char)
    (maxResults : Int) (e : Entry)
    (he : e ∈ (search_scholar backend q maxResults).results) :
    ∃ r t, r.title = some t ∧ e = mkEntry r t := by
  unfold search_scholar at he
  by_cases h : maxResults ≤ 0
  · rw [if_pos h] at he
    simp at he
  · rw [if_neg h] at he
    obtain ⟨n, hk, hprops, hres⟩ := search_loop_res (backend q) maxResults.toNat
      ((maxResults.toNat - 0) * 5 + 4) [] 0 0 (by omega)
    have h0 : (10 : Nat) * 0 = 0 := by ring
    rw [h0] at hres
    have he2 : e ∈ ((search_loop (backend q) maxResults.toNat [] 0 0).1).take
        maxResults.toNat := he
    have he3 := List.mem_of_mem_take he2
    rw [hres] at he3
    simp only [List.nil_append] at he3
    rw [List.mem_flatten] at he3
    obtain ⟨l, hl, hel⟩ := he3
    rw [List.mem_map] at hl
    obtain ⟨i, hi, rfl⟩ := hl
    have hin : i < n := by
      rw [← List.range_eq_range'] at hi
      exact List.mem_range.mp hi
    obtain ⟨blocks, hbk, _⟩ := hprops i (Nat.zero_le i) hin
    rw [hbk] at hel
    have hel2 : e ∈ parse_results blocks := hel
    unfold parse_results at hel2
    rw [List.mem_filterMap] at hel2
    obtain ⟨r, _, hmap⟩ := hel2
    rw [Option.map_eq_some'] at hmap
    obtain ⟨t, ht, hmk⟩ := hmap
    exact ⟨r, t, ht, hmk.symm⟩

/-- C9 (amended): every emitted record's identifier, when present, is the
first `DOI_PATTERN` match across title, URL and snippet in that priority
order, trimmed of trailing punctuation; it has the form
`10.<registrant>/<suffix>` where the registrant is AT LEAST 4 decimal
digits (the scholar-side pattern `10\.\d{4,}/\S+` has no 9-digit upper
bound) and the suffix is a possibly-empty whitespace-free run not ending
in one of `.,;)`. -/
theorem C9_emitted_doi_shape :
    (∀ (backend : List Char → Nat → PageResp) (q : List Char) (maxResults : Int)
        (e : Entry), e ∈ (search_scholar backend q maxResults).results →
      e.doi = extract_doi_scholar [e.title, e.url, e.snippet]) ∧
    (∀ (backend : List Char → Nat → PageResp) (q : List Char) (maxResults : Int)
        (e : Entry) (dval : List Char),
      e ∈ (search_scholar backend q maxResults).results →
      e.doi = some dval →
      ∃ ds suf, dval = str "10." ++ ds ++ '/' :: suf ∧
        (∀ x ∈ ds, Char.isDigit x = true) ∧ 4 ≤ ds.length ∧
        (∀ x ∈ suf, pyIsSpace x = false) ∧
        (∀ c, suf.getLast? = some c → punctS c = false)) := by
  constructor
  · intro backend q maxResults e he
    obtain ⟨r, t, ht, rfl⟩ := mem_search_results backend q maxResults e he
    rfl
  · intro backend q maxResults e dval he hdoi
    obtain ⟨r, t, ht, rfl⟩ := mem_search_results backend q maxResults e he
    exact extract_doi_scholar_shape _ dval hdoi

end ScholarSearch

namespace ScholarSearch

open DoiUtils

/-- Concrete evaluation of a one-result search against `bk9`. -/
theorem search_scholar_bk9 :
    (search_scholar bk9 (str "q") 1).results
      = [mkEntry blk9r (str "10.12345678901/x")] := by
  have h2 : search_loop (bk9 (str "q")) (1 : Int).toNat
      [mkEntry blk9r (str "10.12345678901/x")] 10 0
      = ([mkEntry blk9r (str "10.12345678901/x")], []) := by
    rw [search_loop, dif_neg (by simp)]
  have h1 : search_loop (bk9 (str "q")) (1 : Int).toNat [] 0 0
      = ([mkEntry blk9r (str "10.12345678901/x")], [0]) := by
    rw [search_loop, dif_pos (by simp)]
    show ((search_loop (bk9 (str "q")) (1 : Int).toNat
        [mkEntry blk9r (str "10.12345678901/x")] 10 0).1,
      0 :: (search_loop (bk9 (str "q")) (1 : Int).toNat
        [mkEntry blk9r (str "10.12345678901/x")] 10 0).2)
      = ([mkEntry blk9r (str "10.12345678901/x")], [0])
    rw [h2]
  unfold search_scholar
  rw [if_neg (by decide)]
  show ((search_loop (bk9 (str "q")) (1 : Int).toNat [] 0 0).1).take (1 : Int).toNat = _
  rw [h1]
  rfl

/-- C9 is false as stated: the paginator emits a record whose identifier
`10.12345678901/x` has an 11-digit registrant — the scholar-side pattern
puts no upper bound on the registrant, so the identifier does not match
the canonical 4–9-digit form.  Moreover trailing-punctuation trimming can
leave an empty suffix (`10.1234/))` yields `10.1234/`), which the
canonical form also rejects. -/
theorem C9_counterexample :
    (∃ e, e ∈ (search_scholar bk9 (str "q") 1).results ∧
      e.doi = some (str "10.12345678901/x") ∧
      DoiUtils.is_valid_doi (str "10.12345678901/x") = false ∧
      DoiUtils.doiCoreMatch (str "10.12345678901/x") = false) ∧
    extract_doi_scholar [str "10.1234/))"] = some (str "10.1234/") ∧
    DoiUtils.is_valid_doi (str "10.1234/") = false := by
  refine ⟨⟨mkEntry blk9r (str "10.12345678901/x"), ?_, ?_, by decide, by decide⟩,
    by decide, by decide⟩
  · rw [search_scholar_bk9]
    simp
  · decide

/-- Witness for the amended C9 at the concrete emitted record. -/
theorem C9_emitted_doi_shape_witness :
    (mkEntry blk9r (str "10.12345678901/x")).doi
      = extract_doi_scholar [(mkEntry blk9r (str "10.12345678901/x")).title,
          (mkEntry blk9r (str "10.12345678901/x")).url,
          (mkEntry blk9r (str "10.12345678901/x")).snippet] ∧
    (∃ ds suf, str "10.12345678901/x" = str "10." ++ ds ++ '/' :: suf ∧
      (∀ x ∈ ds, Char.isDigit x = true) ∧ 4 ≤ ds.length ∧
      (∀ x ∈ suf, pyIsSpace x = false) ∧
      (∀ c, suf.getLast? = some c → punctS c = false)) := by
  have hmem : mkEntry blk9r (str "10.12345678901/x")
      ∈ (search_scholar bk9 (str "q") 1).results := by
    rw [search_scholar_bk9]
    simp
  exact ⟨C9_emitted_doi_shape.1 bk9 (str "q") 1 _ hmem,
    C9_emitted_doi_shape.2 bk9 (str "q") 1 _ (str "10.12345678901/x") hmem (by decide)⟩

end ScholarSearch
